import Mathlib

/-!
A verification development for the terminal-UI compositor
(`src/textual/_compositor.py`).  The data model and every operation the
claims mention are embedded shallowly below; theorems about the claims
follow the definitions.

Conventions of the embedding:
* Python `int` is `Int`; list indices that Python produces as non-negative
  by construction are converted with `Int.toNat` at the use site.
* A rich `Segment` is opaque in the source (the compositor only uses its
  `style` and `cell_length` and divides lines at cell boundaries), so it is
  embedded as a style id together with a cell length.
* Fallible code (`IndexError`, a raising layout) is embedded with `Option`
  / `Except`: `none` marks an uncaught Python exception.
* Python dicts keyed by widget identity are embedded as association lists
  keyed by a numeric widget id; insertion replaces in place, preserving
  Python's dict iteration order.
-/

/-- A run of terminal cells.  `style` is an opaque style id (0 is the null
style), `len` the pre-computed cell length of the run. -/
structure Segment where
  style : Nat
  len : Nat
deriving DecidableEq, Repr

/-- A line: an ordered sequence of segments, as rendered for one row. -/
abbrev Line := List Segment

/-- Total cell length of a line (sum of the segments' cell lengths). -/
def cellLen (l : Line) : Nat := (l.map (·.len)).sum

/-- The style shown at cell column `x` of a line: walk segments
accumulating cell lengths until the accumulated end exceeds `x`
(the loop of `get_style_at`).  `none` when `x` is past the end. -/
def styleAtCol : Line → Nat → Option Nat
  | [], _ => none
  | s :: rest, x => if x < s.len then some s.style else styleAtCol rest (x - s.len)

/-- The sub-line covering cell columns `[a, b)`; segments are split at cell
boundaries and the result is truncated at the end of the line (the
behaviour of rich's `Segment.divide` slices, per the spec: total,
length-preserving, splitting at cell boundaries). -/
def segSlice : Line → Nat → Nat → Line
  | [], _, _ => []
  | s :: rest, a, b =>
    if b ≤ a then []
    else if s.len ≤ a then segSlice rest (a - s.len) (b - s.len)
    else ⟨s.style, min s.len b - a⟩ :: segSlice rest 0 (b - s.len)

/-- `divide(line, cuts)`: one slice per cut, slice `i` covering
`[cuts[i-1], cuts[i])` with an implicit initial cut at 0. -/
def divideGo (line : Line) (prev : Int) : List Int → List Line
  | [] => []
  | c :: cs => segSlice line prev.toNat c.toNat :: divideGo line c cs

/-- `Segment.divide(line, cuts)` as used by the compositor. -/
def divideSegs (line : Line) (cuts : List Int) : List Line :=
  divideGo line 0 cuts

@[simp] theorem cellLen_nil : cellLen [] = 0 := rfl

@[simp] theorem cellLen_cons (s : Segment) (l : Line) :
    cellLen (s :: l) = s.len + cellLen l := by
  simp [cellLen]

@[simp] theorem cellLen_append (l1 l2 : Line) :
    cellLen (l1 ++ l2) = cellLen l1 + cellLen l2 := by
  induction l1 with
  | nil => simp
  | cons s l ih => simp [ih]; omega

theorem styleAtCol_append (l1 l2 : Line) (x : Nat) :
    styleAtCol (l1 ++ l2) x =
      if x < cellLen l1 then styleAtCol l1 x else styleAtCol l2 (x - cellLen l1) := by
  induction l1 generalizing x with
  | nil => simp [styleAtCol]
  | cons s l ih =>
    simp only [List.cons_append, styleAtCol, cellLen_cons, List.append_eq]
    by_cases h : x < s.len
    · rw [if_pos h, if_pos (by omega), if_pos h]
    · rw [if_neg h, ih]
      by_cases h2 : x - s.len < cellLen l
      · rw [if_pos h2, if_pos (by omega), if_neg h]
      · rw [if_neg h2, if_neg (by omega)]
        congr 1
        omega

theorem styleAtCol_none_of_le (l : Line) (x : Nat) (h : cellLen l ≤ x) :
    styleAtCol l x = none := by
  induction l generalizing x with
  | nil => rfl
  | cons s t ih =>
    simp only [cellLen_cons] at h
    simp only [styleAtCol, if_neg (by omega : ¬ x < s.len)]
    exact ih _ (by omega)

theorem styleAtCol_isSome_of_lt (l : Line) (x : Nat) (h : x < cellLen l) :
    (styleAtCol l x).isSome := by
  induction l generalizing x with
  | nil => simp [cellLen] at h
  | cons s t ih =>
    simp only [styleAtCol]
    by_cases hx : x < s.len
    · simp [hx]
    · simp only [if_neg hx]
      exact ih _ (by simp [cellLen_cons] at h; omega)

theorem cellLen_segSlice (l : Line) (a b : Nat) :
    cellLen (segSlice l a b) = min b (cellLen l) - a := by
  induction l generalizing a b with
  | nil => simp [segSlice]
  | cons s t ih =>
    simp only [segSlice]
    by_cases h1 : b ≤ a
    · simp only [if_pos h1, cellLen_nil, cellLen_cons]
      omega
    · simp only [if_neg h1]
      by_cases h2 : s.len ≤ a
      · rw [if_pos h2, ih]
        simp only [cellLen_cons]
        omega
      · rw [if_neg h2]
        simp only [cellLen_cons, ih]
        omega

theorem styleAtCol_segSlice (l : Line) (a b i : Nat) (h : i < b - a) :
    styleAtCol (segSlice l a b) i = styleAtCol l (a + i) := by
  induction l generalizing a b i with
  | nil => simp [segSlice, styleAtCol]
  | cons s t ih =>
    simp only [segSlice]
    rw [if_neg (by omega : ¬ b ≤ a)]
    by_cases h2 : s.len ≤ a
    · rw [if_pos h2, ih _ _ _ (by omega)]
      simp only [styleAtCol, if_neg (by omega : ¬ a + i < s.len)]
      congr 1
      omega
    · rw [if_neg h2]
      simp only [styleAtCol]
      by_cases h3 : i < min s.len b - a
      · rw [if_pos h3, if_pos (by omega)]
      · rw [if_neg h3, ih _ _ _ (by omega)]
        have : a + i - s.len = 0 + (i - (min s.len b - a)) := by omega
        rw [if_neg (by omega : ¬ a + i < s.len), this]

/-! ## Geometry primitives

Modelled from the spec: `geometry.py` is not under `src/`.  The spec
defines a `Region` as an axis-aligned rectangle `(x, y, w, h)` in integer
cell coordinates, with intersection (possibly empty), union, containment
of a point (half-open), containment of another region, overlap test,
x-extents `[x, x+w)` and y-range `[y, y+h)`; an `Offset` is a signed pair
and a `Size` a pair with a derived origin region. -/

structure Offset where
  x : Int
  y : Int
deriving DecidableEq, Repr

structure Size where
  width : Int
  height : Int
deriving DecidableEq, Repr

structure Region where
  x : Int
  y : Int
  width : Int
  height : Int
deriving DecidableEq, Repr

def Offset.add (a b : Offset) : Offset := ⟨a.x + b.x, a.y + b.y⟩

def Offset.sub (a b : Offset) : Offset := ⟨a.x - b.x, a.y - b.y⟩

def Region.right (r : Region) : Int := r.x + r.width

def Region.bottom (r : Region) : Int := r.y + r.height

def Region.origin (r : Region) : Offset := ⟨r.x, r.y⟩

def Region.size (r : Region) : Size := ⟨r.width, r.height⟩

/-- Python truthiness of a region: `bool(width and height)`. -/
def Region.nonEmptyB (r : Region) : Bool := r.width ≠ 0 && r.height ≠ 0

/-- `Region + Offset`: translate the origin. -/
def Region.translate (r : Region) (o : Offset) : Region :=
  ⟨r.x + o.x, r.y + o.y, r.width, r.height⟩

/-- Intersection, clamped to non-negative extent (empty when disjoint). -/
def Region.intersection (r c : Region) : Region :=
  let ix := max r.x c.x
  let iy := max r.y c.y
  let ix2 := min r.right c.right
  let iy2 := min r.bottom c.bottom
  ⟨ix, iy, max 0 (ix2 - ix), max 0 (iy2 - iy)⟩

/-- Bounding union. -/
def Region.union (r c : Region) : Region :=
  let ux := min r.x c.x
  let uy := min r.y c.y
  let ux2 := max r.right c.right
  let uy2 := max r.bottom c.bottom
  ⟨ux, uy, ux2 - ux, uy2 - uy⟩

/-- Point containment: `x ≤ px < x + w` and `y ≤ py < y + h`. -/
def Region.containsB (r : Region) (px py : Int) : Bool :=
  r.x ≤ px && px < r.right && r.y ≤ py && py < r.bottom

/-- `other in r`: region containment. -/
def Region.containsRegionB (r other : Region) : Bool :=
  r.x ≤ other.x && r.y ≤ other.y && other.right ≤ r.right && other.bottom ≤ r.bottom

/-- Overlap: the regions share at least one cell. -/
def Region.overlapsB (r other : Region) : Bool :=
  (r.intersection other).nonEmptyB

/-- The rows `[y, y + h)` covered by the region, as a list. -/
def Region.yRangeList (r : Region) : List Int :=
  (List.range r.height.toNat).map (fun (i : Nat) => r.y + (i : Int))

/-- `(x, y, x + w, y + h)`. -/
def Region.corners (r : Region) : Int × Int × Int × Int :=
  (r.x, r.y, r.right, r.bottom)

def Size.region (s : Size) : Region := ⟨0, 0, s.width, s.height⟩

@[simp] theorem Region.intersection_x (r c : Region) :
    (r.intersection c).x = max r.x c.x := rfl

@[simp] theorem Region.intersection_y (r c : Region) :
    (r.intersection c).y = max r.y c.y := rfl

@[simp] theorem Region.intersection_width (r c : Region) :
    (r.intersection c).width = max 0 (min r.right c.right - max r.x c.x) := rfl

@[simp] theorem Region.intersection_height (r c : Region) :
    (r.intersection c).height = max 0 (min r.bottom c.bottom - max r.y c.y) := rfl

theorem Region.nonEmpty_intersection_iff (r c : Region) :
    (r.intersection c).nonEmptyB = true ↔
      max r.x c.x < min r.right c.right ∧ max r.y c.y < min r.bottom c.bottom := by
  simp only [Region.nonEmptyB, Region.intersection, Region.right, Region.bottom,
    Bool.and_eq_true, decide_eq_true_eq, ne_eq]
  omega

theorem Region.contains_intersection (r c : Region) (px py : Int) :
    (r.intersection c).containsB px py = (r.containsB px py && c.containsB px py) := by
  apply Bool.eq_iff_iff.mpr
  simp only [Region.containsB, Region.intersection, Region.right, Region.bottom,
    Bool.and_eq_true, decide_eq_true_eq]
  omega

/-! ## Ordering and list utilities -/

/-- Python's `<` on int tuples: lexicographic, a strict prefix sorts first. -/
def ltLex : List Int → List Int → Bool
  | _, [] => false
  | [], _ :: _ => true
  | a :: as, b :: bs => if a < b then true else if b < a then false else ltLex as bs

theorem ltLex_irrefl (l : List Int) : ltLex l l = false := by
  induction l with
  | nil => rfl
  | cons a as ih => simp [ltLex, ih]

theorem ltLex_trans {a b c : List Int} (h1 : ltLex a b = true) (h2 : ltLex b c = true) :
    ltLex a c = true := by
  induction a generalizing b c with
  | nil =>
    cases b with
    | nil => simp [ltLex] at h1
    | cons y ys =>
      cases c with
      | nil => simp [ltLex] at h2
      | cons z zs => simp [ltLex]
  | cons x xs ih =>
    cases b with
    | nil => simp [ltLex] at h1
    | cons y ys =>
      cases c with
      | nil => simp [ltLex] at h2
      | cons z zs =>
        simp only [ltLex] at h1 h2 ⊢
        by_cases hxy : x < y
        · by_cases hyz : y < z
          · rw [if_pos (by omega)]
          · rw [if_neg hyz] at h2
            by_cases hzy : z < y
            · rw [if_pos hzy] at h2; exact absurd h2 (by simp)
            · rw [if_pos (by omega)]
        · rw [if_neg hxy] at h1
          by_cases hyx : y < x
          · rw [if_pos hyx] at h1; exact absurd h1 (by simp)
          · rw [if_neg hyx] at h1
            by_cases hyz : y < z
            · rw [if_pos (by omega)]
            · rw [if_neg hyz] at h2
              by_cases hzy : z < y
              · rw [if_pos hzy] at h2; exact absurd h2 (by simp)
              · rw [if_neg hzy] at h2
                rw [if_neg (by omega), if_neg (by omega)]
                exact ih h1 h2

theorem ltLex_asymm {a b : List Int} (h : ltLex a b = true) : ltLex b a = false := by
  by_contra hc
  have hb : ltLex b a = true := by
    cases hba : ltLex b a
    · exact absurd hba hc
    · rfl
  have := ltLex_trans h hb
  rw [ltLex_irrefl] at this
  exact Bool.false_ne_true this

/-- Stable ascending insertion by an `Int` key (Python's `sorted(key=...)`). -/
def insSortedBy (key : α → Int) (x : α) : List α → List α
  | [] => [x]
  | y :: ys => if key x < key y then x :: y :: ys else y :: insSortedBy key x ys

/-- Stable sort ascending by an `Int` key. -/
def sortByKey (key : α → Int) (l : List α) : List α :=
  l.foldl (fun acc x => insSortedBy key x acc) []

/-- Stable descending insertion by a lexicographic tuple key
(Python's `sorted(key=..., reverse=True)`). -/
def insDescBy (key : α → List Int) (x : α) : List α → List α
  | [] => [x]
  | y :: ys => if ltLex (key y) (key x) then x :: y :: ys else y :: insDescBy key x ys

/-- Stable sort, descending by a lexicographic tuple key. -/
def sortDescBy (key : α → List Int) (l : List α) : List α :=
  l.foldl (fun acc x => insDescBy key x acc) []

theorem perm_insSortedBy (key : α → Int) (x : α) (l : List α) :
    (insSortedBy key x l).Perm (x :: l) := by
  induction l with
  | nil => exact List.Perm.refl _
  | cons y ys ih =>
    simp only [insSortedBy]
    by_cases h : key x < key y
    · rw [if_pos h]
    · rw [if_neg h]
      exact ((ih.cons y).trans (List.Perm.swap x y ys))

theorem perm_sortByKey (key : α → Int) (l : List α) : (sortByKey key l).Perm l := by
  suffices h : ∀ acc : List α, ((l.foldl (fun acc x => insSortedBy key x acc) acc)).Perm
      (acc ++ l) by
    simpa using h []
  induction l with
  | nil => intro acc; simp
  | cons a as ih =>
    intro acc
    simp only [List.foldl_cons]
    refine (ih _).trans ?_
    have h1 : (insSortedBy key a acc ++ as).Perm ((a :: acc) ++ as) :=
      (perm_insSortedBy key a acc).append_right as
    refine h1.trans ?_
    simp only [List.cons_append]
    exact List.perm_middle.symm

theorem perm_insDescBy (key : α → List Int) (x : α) (l : List α) :
    (insDescBy key x l).Perm (x :: l) := by
  induction l with
  | nil => exact List.Perm.refl _
  | cons y ys ih =>
    simp only [insDescBy]
    by_cases h : ltLex (key y) (key x)
    · rw [if_pos h]
    · rw [if_neg h]
      exact ((ih.cons y).trans (List.Perm.swap x y ys))

theorem perm_sortDescBy (key : α → List Int) (l : List α) :
    (sortDescBy key l).Perm l := by
  suffices h : ∀ acc : List α, ((l.foldl (fun acc x => insDescBy key x acc) acc)).Perm
      (acc ++ l) by
    simpa using h []
  induction l with
  | nil => intro acc; simp
  | cons a as ih =>
    intro acc
    simp only [List.foldl_cons]
    refine (ih _).trans ?_
    have h1 : (insDescBy key a acc ++ as).Perm ((a :: acc) ++ as) :=
      (perm_insDescBy key a acc).append_right as
    refine h1.trans ?_
    simp only [List.cons_append]
    exact List.perm_middle.symm

/-- Descending sortedness: no element strictly below a later one. -/
theorem pairwise_insDescBy (key : α → List Int) (x : α) (l : List α)
    (h : l.Pairwise (fun a b => ltLex (key a) (key b) = false)) :
    (insDescBy key x l).Pairwise (fun a b => ltLex (key a) (key b) = false) := by
  induction l with
  | nil => simp [insDescBy]
  | cons y ys ih =>
    simp only [insDescBy]
    rcases List.pairwise_cons.mp h with ⟨hy, hys⟩
    by_cases hxy : ltLex (key y) (key x)
    · rw [if_pos hxy]
      refine List.pairwise_cons.mpr ⟨?_, h⟩
      intro b hb
      rcases List.mem_cons.mp hb with hb | hb
      · subst hb; exact ltLex_asymm hxy
      · rcases hlt : ltLex (key x) (key b) with _ | _
        · rfl
        · have hyb := hy b hb
          have := ltLex_trans hxy hlt
          rw [hyb] at this
          exact absurd this Bool.false_ne_true
    · rw [if_neg hxy]
      refine List.pairwise_cons.mpr ⟨?_, ih hys⟩
      intro b hb
      have hb' := (perm_insDescBy key x ys).mem_iff.mp hb
      rcases List.mem_cons.mp hb' with hb' | hb'
      · subst hb'
        simpa using hxy
      · exact hy b hb'

theorem pairwise_sortDescBy (key : α → List Int) (l : List α) :
    (sortDescBy key l).Pairwise (fun a b => ltLex (key a) (key b) = false) := by
  suffices h : ∀ acc : List α,
      acc.Pairwise (fun a b => ltLex (key a) (key b) = false) →
      ((l.foldl (fun acc x => insDescBy key x acc) acc)).Pairwise
        (fun a b => ltLex (key a) (key b) = false) by
    exact h [] (by simp)
  induction l with
  | nil => intro acc hacc; simpa using hacc
  | cons a as ih =>
    intro acc hacc
    simp only [List.foldl_cons]
    exact ih _ (pairwise_insDescBy key a acc hacc)

/-- Insert into a sorted duplicate-free list (`sorted(set(...))`). -/
def insUnique (x : Int) : List Int → List Int
  | [] => [x]
  | y :: ys => if x < y then x :: y :: ys else if x = y then y :: ys else y :: insUnique x ys

/-- `sorted(set(l))`: strictly sorted deduplication. -/
def sortDedup (l : List Int) : List Int := l.foldr insUnique []

theorem mem_insUnique (x a : Int) (l : List Int) :
    a ∈ insUnique x l ↔ a = x ∨ a ∈ l := by
  induction l with
  | nil => simp [insUnique]
  | cons y ys ih =>
    simp only [insUnique]
    split
    · simp
    · split
      · rename_i h1 h2
        subst h2
        simp only [List.mem_cons]
        tauto
      · simp only [List.mem_cons, ih]
        tauto

theorem pairwise_insUnique (x : Int) (l : List Int)
    (h : l.Pairwise (· < ·)) : (insUnique x l).Pairwise (· < ·) := by
  induction l with
  | nil => simp [insUnique]
  | cons y ys ih =>
    rcases List.pairwise_cons.mp h with ⟨hy, hys⟩
    simp only [insUnique]
    by_cases h1 : x < y
    · rw [if_pos h1]
      refine List.pairwise_cons.mpr ⟨?_, h⟩
      intro b hb
      rcases List.mem_cons.mp hb with hb | hb
      · omega
      · have := hy b hb; omega
    · rw [if_neg h1]
      by_cases h2 : x = y
      · rw [if_pos h2]; exact h
      · rw [if_neg h2]
        refine List.pairwise_cons.mpr ⟨?_, ih hys⟩
        intro b hb
        rcases (mem_insUnique x b ys).mp hb with hb | hb
        · omega
        · exact hy b hb

theorem sortDedup_pairwise (l : List Int) : (sortDedup l).Pairwise (· < ·) := by
  induction l with
  | nil => simp [sortDedup]
  | cons a as ih => exact pairwise_insUnique a _ ih

theorem mem_sortDedup (l : List Int) (a : Int) : a ∈ sortDedup l ↔ a ∈ l := by
  induction l with
  | nil => simp [sortDedup]
  | cons b bs ih =>
    simp only [sortDedup, List.foldr_cons, List.mem_cons]
    rw [mem_insUnique]
    simp only [sortDedup] at ih
    rw [ih]

/-- In a strictly sorted list the least member is the head. -/
theorem head?_of_sorted_min (l : List Int) (a : Int)
    (hs : l.Pairwise (· < ·)) (hm : a ∈ l) (hmin : ∀ b ∈ l, a ≤ b) :
    l.head? = some a := by
  cases l with
  | nil => cases hm
  | cons x xs =>
    simp only [List.head?_cons, Option.some.injEq]
    rcases List.mem_cons.mp hm with h | h
    · omega
    · have hx := (List.pairwise_cons.mp hs).1 a h
      have := hmin x (List.mem_cons_self x xs)
      omega

/-- In a strictly sorted list the greatest member is the last. -/
theorem getLast?_of_sorted_max (l : List Int) (a : Int)
    (hs : l.Pairwise (· < ·)) (hm : a ∈ l) (hmax : ∀ b ∈ l, b ≤ a) :
    l.getLast? = some a := by
  induction l with
  | nil => cases hm
  | cons x xs ih =>
    cases xs with
    | nil =>
      rcases List.mem_cons.mp hm with h | h
      · simp [List.getLast?, h]
      · cases h
    | cons y ys =>
      rw [List.getLast?_cons_cons]
      rcases List.mem_cons.mp hm with h | h
      · subst h
        have : y ∈ a :: y :: ys := List.mem_cons.mpr (Or.inr (List.mem_cons_self y ys))
        have h1 := (List.pairwise_cons.mp hs).1 y (List.mem_cons_self y ys)
        have h2 := hmax y this
        omega
      · exact ih (List.pairwise_cons.mp hs).2 h
          (fun b hb => hmax b (List.mem_cons.mpr (Or.inr hb)))

/-- Python list read `l[i]`, including negative-index wrap-around;
`none` is an `IndexError`. -/
def pyGet (l : List α) (i : Int) : Option α :=
  if 0 ≤ i ∧ i < l.length then l.get? i.toNat
  else if -(l.length : Int) ≤ i ∧ i < 0 then l.get? (l.length + i).toNat
  else none

/-- Python list item assignment `l[i] = a`; `none` is an `IndexError`. -/
def pySet (l : List α) (i : Int) (a : α) : Option (List α) :=
  if 0 ≤ i ∧ i < l.length then some (l.set i.toNat a)
  else if -(l.length : Int) ≤ i ∧ i < 0 then some (l.set (l.length + i).toNat a)
  else none

theorem pyGet_nonneg (l : List α) (i : Int) (h0 : 0 ≤ i) (hl : i < l.length) :
    pyGet l i = l.get? i.toNat := by
  simp [pyGet, h0, hl]

theorem pySet_nonneg (l : List α) (i : Int) (a : α) (h0 : 0 ≤ i) (hl : i < l.length) :
    pySet l i a = some (l.set i.toNat a) := by
  simp [pySet, h0, hl]

/-- Fold in the `Option` monad: `none` (an uncaught exception) aborts. -/
def optFoldl (f : β → α → Option β) : β → List α → Option β
  | b, [] => some b
  | b, a :: as =>
    match f b a with
    | none => none
    | some b' => optFoldl f b' as

/-! ## The widget capability surface and the widget tree

Modelled from the spec (`widget.py` and the layouts are not under `src/`):
a widget exposes `size`, `z`, `visible`, `is_transparent`, `scroll`,
`styles.offset`, `get_lines()` and an optional layout whose
`arrange` yields placements `(sub_region, sub_widget, order)` plus a set
of considered widgets, and may raise.  A particular arrangement is
embedded as data: `off` is the resolved `styles.offset` (a zero offset
coincides with the `ORIGIN` fallback for a falsy style), `lines` the
result of `get_lines()` (render caches are identities here), `fails`
marks an `arrange` call that raises, and widget identity is the numeric
`wid` (the spec: a stable opaque id suffices for map/set keys). -/

structure WAttrs where
  wid : Nat
  size : Size
  z : List Int
  visible : Bool
  transparent : Bool
  scroll : Offset
  off : Offset
  lines : List Line
deriving DecidableEq, Repr

mutual
inductive Widget : Type where
  | mk (attrs : WAttrs) (layout : Option LayoutCap) : Widget

inductive LayoutCap : Type where
  | mk (fails : Bool) (placements : List Placement) (extra : List Nat) : LayoutCap

inductive Placement : Type where
  | mk (region : Region) (widget : Option Widget) (order : Int) : Placement
end

def Widget.attrs : Widget → WAttrs
  | .mk a _ => a

def Widget.layout : Widget → Option LayoutCap
  | .mk _ l => l

def LayoutCap.fails : LayoutCap → Bool
  | .mk f _ _ => f

def LayoutCap.placements : LayoutCap → List Placement
  | .mk _ p _ => p

def LayoutCap.extra : LayoutCap → List Nat
  | .mk _ _ e => e

def Placement.region : Placement → Region
  | .mk r _ _ => r

def Placement.widget : Placement → Option Widget
  | .mk _ w _ => w

def Placement.order : Placement → Int
  | .mk _ _ o => o

/-- One value of the `map`: the widget (key, with its attribute snapshot)
and its `RenderRegion` `(region, order, clip, virtual_size)`. -/
structure MapEntry where
  widget : WAttrs
  region : Region
  order : List Int
  clip : Region
  vsize : Size
deriving DecidableEq, Repr

/-- `region.intersection(clip)` of a map entry (its clipped region). -/
def clippedOf (e : MapEntry) : Region := e.region.intersection e.clip

/-- Python dict insertion keyed by widget identity: replace in place,
else append (preserves dict iteration order). -/
def dictInsert (m : List MapEntry) (e : MapEntry) : List MapEntry :=
  if m.any (fun e' => e'.widget.wid = e.widget.wid) then
    m.map (fun e' => if e'.widget.wid = e.widget.wid then e else e')
  else m ++ [e]

/-- `set.add` keyed by widget identity. -/
def setAdd (ws : List Nat) (i : Nat) : List Nat :=
  if i ∈ ws then ws else ws ++ [i]

/-- `set.update`. -/
def setAddAll (ws : List Nat) (is' : List Nat) : List Nat :=
  is'.foldl setAdd ws

/-- The mutable local state of `_arrange_root`: the map being built and
the widget set. -/
structure ArrSt where
  map : List MapEntry
  widgets : List Nat
deriving DecidableEq, Repr

theorem perm_sizeOf_eq {α} [SizeOf α] {l1 l2 : List α} (h : l1.Perm l2) :
    sizeOf l1 = sizeOf l2 := by
  induction h with
  | nil => rfl
  | cons a _ ih => simp only [List.cons.sizeOf_spec]; omega
  | swap a b l => simp only [List.cons.sizeOf_spec]; omega
  | trans _ _ ih1 ih2 => omega

theorem sortByKey_sizeOf (key : α → Int) (l : List α) [SizeOf α] :
    sizeOf (sortByKey key l) = sizeOf l :=
  perm_sizeOf_eq (perm_sortByKey key l)

mutual
/-- `add_widget` of `Compositor._arrange_root`. -/
def addWidget (w : Widget) (region : Region) (order : List Int) (clip : Region)
    (st : ArrSt) : Except Unit ArrSt :=
  match w with
  | .mk attrs none =>
      let st := ArrSt.mk st.map (setAdd st.widgets attrs.wid)
      .ok (ArrSt.mk
        (dictInsert st.map ⟨attrs, region.translate attrs.off, order, clip, region.size⟩)
        st.widgets)
  | .mk attrs (some lc) =>
      let st := ArrSt.mk st.map (setAdd st.widgets attrs.wid)
      if lc.fails then .error ()
      else
        let subClip := clip.intersection region
        let st := ArrSt.mk st.map (setAddAll st.widgets lc.extra)
        let ps := sortByKey Placement.order lc.placements
        match addPlacements ps region.origin attrs.scroll subClip region.size.region st with
        | .error e => .error e
        | .ok (total, st') =>
            .ok (ArrSt.mk
              (dictInsert st'.map ⟨attrs, region.translate attrs.off, order, clip, total.size⟩)
              st'.widgets)
termination_by sizeOf w
decreasing_by
  · rw [sortByKey_sizeOf]
    cases lc with
    | mk f p e =>
      simp only [LayoutCap.placements, Widget.mk.sizeOf_spec, LayoutCap.mk.sizeOf_spec,
        Option.some.sizeOf_spec]
      omega

/-- The placement loop of `add_widget`, threading `total_region` and the
shared map/widget-set state. -/
def addPlacements (ps : List Placement) (origin : Offset) (scroll : Offset)
    (subClip : Region) (total : Region) (st : ArrSt) : Except Unit (Region × ArrSt) :=
  match ps with
  | [] => .ok (total, st)
  | .mk pregion pwidget porder :: rest =>
      let total := total.union pregion
      match pwidget with
      | none => addPlacements rest origin scroll subClip total st
      | some sub =>
          match addWidget sub (pregion.translate (origin.sub scroll))
              (sub.attrs.z ++ [porder]) subClip st with
          | .error e => .error e
          | .ok st' => addPlacements rest origin scroll subClip total st'
termination_by sizeOf ps
decreasing_by
  · simp only [List.cons.sizeOf_spec]; omega
  · simp only [List.cons.sizeOf_spec, Placement.mk.sizeOf_spec, Option.some.sizeOf_spec]
    omega
  · simp only [List.cons.sizeOf_spec]; omega
end

/-- `Compositor._arrange_root`. -/
def arrangeRoot (root : Widget) : Except Unit ArrSt :=
  let size := root.attrs.size
  addWidget root size.region [] size.region (ArrSt.mk [] [])

/-! ## Compositor state and operations -/

/-- The compositor's mutable state.  `regions` is the projection used by
partial update, `cutsCache` the lazily memoised `_cuts`. -/
structure Compositor where
  map : List MapEntry
  widgets : List Nat
  root : Option Widget
  size : Size
  regions : List (Nat × Region × Region)
  cutsCache : Option (List (List Int))
  requireUpdateFlag : Bool

/-- `Compositor.__init__`. -/
def Compositor.init : Compositor :=
  ⟨[], [], none, ⟨0, 0⟩, [], none, true⟩

def Compositor.checkUpdate (st : Compositor) : Bool := st.requireUpdateFlag

/-- `Compositor.reset`: drop the cut cache. -/
def Compositor.reset (st : Compositor) : Compositor := { st with cutsCache := none }

/-- `Compositor.require_update`: set the flag, reset the cut cache and
clear `map` and `widgets`. -/
def Compositor.requireUpdate (st : Compositor) : Compositor :=
  { st with requireUpdateFlag := true, cutsCache := none, map := [], widgets := [] }

def Compositor.resetUpdate (st : Compositor) : Compositor :=
  { st with requireUpdateFlag := false }

/-- The result of a reflow operation (sets of widget ids). -/
structure ReflowResult where
  hidden : List Nat
  shown : List Nat
  resized : List Nat
deriving DecidableEq, Repr

/-- The keys of the map, in dict iteration order. -/
def mapKeys (m : List MapEntry) : List Nat := m.map (fun e => e.widget.wid)

/-- `Compositor.reflow`.  Mutations before the arrange pass (`reset`,
`root`, `size`) happen even when `arrange` raises; `map`, `regions` and
`widgets` are replaced only afterwards. -/
def Compositor.reflow (st : Compositor) (parent : Widget) (size : Size) :
    Compositor × Except Unit ReflowResult :=
  let st1 : Compositor := { st with cutsCache := none, root := some parent, size := size }
  match arrangeRoot parent with
  | .error e => (st1, .error e)
  | .ok arr =>
      let st2 : Compositor := { st1 with requireUpdateFlag := false }
      let oldKeys := mapKeys st2.map
      let newKeys := mapKeys arr.map
      let shown := newKeys.filter (fun k => decide (k ∉ oldKeys))
      let hidden := oldKeys.filter (fun k => decide (k ∉ newKeys))
      let st3 : Compositor := { st2 with
        map := arr.map
        regions := arr.map.map (fun e => (e.widget.wid, e.region, e.clip))
        widgets := arr.widgets }
      let resized := (arr.map.filter
        (fun e => decide (e.widget.wid ∈ oldKeys) && decide (e.widget.size ≠ e.region.size))).map
        (fun e => e.widget.wid)
      (st3, .ok ⟨hidden, shown, resized⟩)

/-- One iteration of the widget loop in the `cuts` property: a clipped
region that is truthy and lies fully within the screen appends its
x-extents to every row it covers. -/
def cutsStep (screenRegion : Region) (cuts : List (List Int)) (e : MapEntry) :
    List (List Int) :=
  let r := clippedOf e
  if r.nonEmptyB && screenRegion.containsRegionB r then
    cuts.mapIdx (fun y row =>
      if r.y ≤ (y : Int) ∧ (y : Int) < r.y + r.height then row ++ [r.x, r.x + r.width]
      else row)
  else cuts

/-- The `cuts` computation (the body of the `cuts` property when the
cache is cold): every row starts as `[0, width]`, widgets append their
extents, then each row is `sorted(set(...))`. -/
def Compositor.computeCuts (st : Compositor) : List (List Int) :=
  (st.map.foldl (cutsStep st.size.region)
    (List.replicate st.size.height.toNat [0, st.size.width])).map sortDedup

/-- The `cuts` property: the cached value if set, else the computation. -/
def Compositor.cuts (st : Compositor) : List (List Int) :=
  st.cutsCache.getD st.computeCuts

/-- `Compositor.__iter__`: widgets sorted by `order` descending, with
cropped region, region and virtual size. -/
def Compositor.iterWidgets (st : Compositor) : List (WAttrs × Region × Region × Size) :=
  (sortDescBy (fun e => e.order) st.map).map
    (fun e => (e.widget, e.region.intersection e.clip, e.region, e.vsize))

/-- `Compositor.get_widget_at`: the first (frontmost) widget whose cropped
region contains the point; `none` is the `NoWidget` error. -/
def Compositor.getWidgetAt (st : Compositor) (x y : Int) : Option (WAttrs × Region) :=
  (st.iterWidgets.find? (fun t => t.2.1.containsB x y)).map (fun t => (t.1, t.2.2.1))

/-- The segment walk of `get_style_at`: accumulate cell lengths until the
end exceeds the column, returning that segment's style (`or Style.null()`
collapses to the style id since 0 is the null style), null past the end. -/
def lineStyleAt : Line → Int → Nat
  | [], _ => 0
  | s :: rest, x => if x < (s.len : Int) then s.style else lineStyleAt rest (x - s.len)

/-- `Compositor.get_style_at`.  `some s` is a returned style (0 the null
style); `none` is an uncaught `IndexError` from `lines[y]`. -/
def Compositor.getStyleAt (st : Compositor) (x y : Int) : Option Nat :=
  match st.getWidgetAt x y with
  | none => some 0
  | some (w, region) =>
      if ¬ (st.regions.any (fun t => t.1 = w.wid)) then some 0
      else
        let lines := w.lines
        let x' := x - region.x
        let y' := y - region.y
        if y' > (lines.length : Int) then some 0
        else
          match pyGet lines y' with
          | none => none
          | some line => some (lineStyleAt line x')

/-- One widget's contribution in `_get_renders`: skip when transparent,
full lines when `region in clip`, lines cropped to `region ∩ clip` when
they merely overlap, nothing otherwise. -/
def renderOne (e : MapEntry) : Option (Region × Region × List Line) :=
  if e.widget.transparent then none
  else if e.clip.containsRegionB e.region then some (e.region, e.clip, e.widget.lines)
  else if e.clip.overlapsB e.region then
    let newRegion := clippedOf e
    let dx := newRegion.x - e.region.x
    let dy := newRegion.y - e.region.y
    let lines := (e.widget.lines.drop dy.toNat).take newRegion.height.toNat
    some (e.region, e.clip,
      lines.map (fun line => (divideSegs line [dx, dx + newRegion.width]).getD 1 []))
  else none

/-- `Compositor._get_renders`: visible widgets sorted by `order`
descending, each yielding `(region, clip, lines)`. -/
def Compositor.getRenders (st : Compositor) : List (Region × Region × List Line) :=
  if st.map.isEmpty then []
  else (sortDescBy (fun e => e.order)
    (st.map.filter (fun e => e.widget.visible))).filterMap renderOne

/-- A row of cut buckets: cut column to optional segment list. -/
abbrev RowChops := List (Int × Option Line)

abbrev Chops := List RowChops

/-- `if chops_line[cut] is None: chops_line[cut] = segments`.  The keys
written always come from `cuts[y]`, which is exactly the key list of the
row, so the in-place dict update is a keyed list update. -/
def setIfNone (row : RowChops) (key : Int) (v : Line) : RowChops :=
  row.map (fun p => if p.1 = key ∧ p.2 = none then (p.1, some v) else p)

/-- Processing one row of one widget's render in `Compositor.render`:
filter the row's cuts to the widget's extent, divide the line at the
relative cuts, and write each slice into its bucket, first writer wins.
`none` is an uncaught Python exception (an out-of-range row index, or
unpacking `divide` of an empty cut list). -/
def stepRow (cuts : List (List Int)) (firstCut lastCut : Int) (chops : Chops)
    (y : Int) (line : Line) : Option Chops :=
  (pyGet cuts y).bind (fun cutsY =>
    let finalCuts := cutsY.filter (fun c => decide (lastCut ≥ c) && decide (c ≥ firstCut))
    let cutSegments :=
      if finalCuts.length = 2 then some [line]
      else if finalCuts.isEmpty then none
      else some ((divideSegs line (finalCuts.map (fun c => c - firstCut))).drop 1)
    cutSegments.bind (fun segs =>
      (pyGet chops y).bind (fun chopsLine =>
        pySet chops y ((finalCuts.zip segs).foldl
          (fun r p => setIfNone r p.1 p.2) chopsLine))))

/-- Processing one widget's render: iterate the rows of
`region ∩ clip` zipped against the render's lines. -/
def stepRender (cuts : List (List Int)) (chops : Chops)
    (t : Region × Region × List Line) : Option Chops :=
  let renderRegion := t.1.intersection t.2.1
  optFoldl (fun ch (p : Int × Line) => stepRow cuts renderRegion.x renderRegion.right ch p.1 p.2)
    chops (renderRegion.yRangeList.zip t.2.2)

/-- Phases 1 and 2 of `Compositor.render`: initialise every cut bucket to
`None` and fill them front to back. -/
def Compositor.renderChops (st : Compositor) : Option Chops :=
  let cuts := st.cuts
  let chops0 : Chops := cuts.map (fun cutSet => cutSet.map (fun c => (c, (none : Option Line))))
  optFoldl (stepRender cuts) chops0 st.getRenders

/-- `Compositor._assemble_chops`: concatenate the non-`None` buckets of
each row in increasing cut order. -/
def assembleChops (chops : Chops) : List Line :=
  chops.map (fun row => (row.filterMap (fun p => p.2)).flatten)

/-- The `width_view` inner function of `Compositor.render`. -/
def widthView (cropX cropX2 : Int) (line : Line) : Line :=
  if line.isEmpty then line
  else
    let divLines := divideSegs line [cropX, cropX2]
    if 1 < divLines.length then divLines.getD 1 [] else divLines.getD 0 []

/-- `Compositor.render`: `none` is an uncaught Python exception during the
occlusion fill (impossible for a well-formed map, see the theorems). -/
def Compositor.render (st : Compositor) (crop : Option Region) : Option (List Line) :=
  let width := st.size.width
  let height := st.size.height
  let screenRegion : Region := ⟨0, 0, width, height⟩
  let cropRegion := match crop with
    | some c => c.intersection screenRegion
    | none => screenRegion
  match st.renderChops with
  | none => none
  | some chops =>
      let cropX := cropRegion.x
      let cropY := cropRegion.y
      let cropX2 := cropRegion.right
      let cropY2 := cropRegion.bottom
      let renderLines := assembleChops ((chops.drop cropY.toNat).take (cropY2 - cropY).toNat)
      some (if crop.isSome ∧ ¬ (cropX = 0 ∧ cropX2 = width) then
        renderLines.map (widthView cropX cropX2)
      else renderLines)

/-- A positioned patch (`LayoutUpdate`): lines plus the region they
cover.  `lines = none` mirrors a render that raised. -/
structure LayoutUpdate where
  lines : Option (List Line)
  region : Region
deriving DecidableEq, Repr

/-- `Compositor.update_widget`.  The widget's render cache drop is the
identity here (lines are pure data). -/
def Compositor.updateWidget (st : Compositor) (wid : Nat) : Option LayoutUpdate :=
  match st.regions.find? (fun t => t.1 = wid) with
  | none => none
  | some (_, region, clip) =>
      if ¬ region.nonEmptyB then none
      else
        let updateRegion := region.intersection clip
        if ¬ updateRegion.nonEmptyB then none
        else some ⟨st.render (some updateRegion), updateRegion⟩

/-- The style cell `(x, y)` of the full render shows (`none` when the
render raised, the row is missing, or the row is shorter than `x`). -/
def Compositor.renderStyleAt (st : Compositor) (x y : Int) : Option Nat :=
  (st.render none).bind (fun ls => (ls[y.toNat]?).bind (fun line => styleAtCol line x.toNat))

/-- The style the widget of a map entry shows at absolute cell
`(px, py)`: its own line at the widget-local coordinate. -/
def widgetContentAt (e : MapEntry) (px py : Int) : Option Nat :=
  match e.widget.lines[(py - e.region.y).toNat]? with
  | none => none
  | some l => styleAtCol l (px - e.region.x).toNat

/-! ## Cut-list lemmas -/

/-- The entry qualifies for the cut list: clipped region truthy and fully
within the screen. -/
def cutQual (screenRegion : Region) (e : MapEntry) : Bool :=
  (clippedOf e).nonEmptyB && screenRegion.containsRegionB (clippedOf e)

/-- Row `y` lies in the region's y-range. -/
def rowCovers (r : Region) (y : Nat) : Prop :=
  r.y ≤ (y : Int) ∧ (y : Int) < r.y + r.height

instance (r : Region) (y : Nat) : Decidable (rowCovers r y) := by
  unfold rowCovers; infer_instance

theorem cutsStep_length (s : Region) (cuts : List (List Int)) (e : MapEntry) :
    (cutsStep s cuts e).length = cuts.length := by
  simp only [cutsStep]
  split
  · exact List.length_mapIdx
  · rfl

theorem cutsStep_getElem (s : Region) (cuts : List (List Int)) (e : MapEntry) (y : Nat) :
    (cutsStep s cuts e)[y]? = (cuts[y]?).map (fun row =>
      if cutQual s e ∧ rowCovers (clippedOf e) y
      then row ++ [(clippedOf e).x, (clippedOf e).right]
      else row) := by
  simp only [cutsStep, cutQual, rowCovers, Region.right]
  by_cases hq : ((clippedOf e).nonEmptyB && s.containsRegionB (clippedOf e)) = true
  · rw [if_pos hq, List.getElem?_mapIdx]
    cases h : cuts[y]? with
    | none => rfl
    | some row =>
      simp only [Option.map]
      congr 1
      by_cases hc : (clippedOf e).y ≤ (y : Int) ∧
          (y : Int) < (clippedOf e).y + (clippedOf e).height
      · rw [if_pos hc, if_pos ⟨hq, hc⟩]
      · rw [if_neg hc, if_neg (by tauto)]
  · rw [if_neg hq]
    cases h : cuts[y]? with
    | none => rfl
    | some row =>
      simp only [Option.map]
      congr 1
      rw [if_neg (by rintro ⟨h1, _⟩; exact hq h1)]

theorem cutsFold_length (s : Region) (ms : List MapEntry) (base : List (List Int)) :
    (ms.foldl (cutsStep s) base).length = base.length := by
  induction ms generalizing base with
  | nil => rfl
  | cons e rest ih =>
    simp only [List.foldl_cons]
    rw [ih, cutsStep_length]

theorem cutsFold_mem (s : Region) (ms : List MapEntry) (base : List (List Int))
    (y : Nat) (row0 : List Int) (h0 : base[y]? = some row0) :
    ∃ row, (ms.foldl (cutsStep s) base)[y]? = some row ∧
      ∀ a : Int, (a ∈ row ↔ a ∈ row0 ∨ ∃ e ∈ ms, cutQual s e ∧ rowCovers (clippedOf e) y ∧
        (a = (clippedOf e).x ∨ a = (clippedOf e).right)) := by
  induction ms generalizing base row0 with
  | nil =>
    exact ⟨row0, h0, fun a => by simp⟩
  | cons e rest ih =>
    simp only [List.foldl_cons]
    have h1 : (cutsStep s base e)[y]? = some (
        if cutQual s e ∧ rowCovers (clippedOf e) y
        then row0 ++ [(clippedOf e).x, (clippedOf e).right] else row0) := by
      rw [cutsStep_getElem, h0]
      rfl
    rcases ih (cutsStep s base e) _ h1 with ⟨row, hrow, hmem⟩
    refine ⟨row, hrow, fun a => ?_⟩
    rw [hmem a]
    by_cases hc : cutQual s e ∧ rowCovers (clippedOf e) y
    · rw [if_pos hc]
      constructor
      · rintro (h | ⟨e', he', h⟩)
        · rcases List.mem_append.mp h with h | h
          · exact Or.inl h
          · rcases List.mem_cons.mp h with h | h
            · exact Or.inr ⟨e, List.mem_cons_self e rest, hc.1, hc.2, Or.inl h⟩
            · rcases List.mem_cons.mp h with h | h
              · exact Or.inr ⟨e, List.mem_cons_self e rest, hc.1, hc.2, Or.inr h⟩
              · cases h
        · exact Or.inr ⟨e', List.mem_cons.mpr (Or.inr he'), h⟩
      · rintro (h | ⟨e', he', hq, hcov, hx⟩)
        · exact Or.inl (List.mem_append.mpr (Or.inl h))
        · rcases List.mem_cons.mp he' with he' | he'
          · subst he'
            rcases hx with hx | hx
            · refine Or.inl (List.mem_append.mpr (Or.inr ?_))
              rw [hx]
              exact List.mem_cons_self _ _
            · refine Or.inl (List.mem_append.mpr (Or.inr ?_))
              rw [hx]
              exact List.mem_cons.mpr (Or.inr (List.mem_cons_self _ _))
          · exact Or.inr ⟨e', he', hq, hcov, hx⟩
    · rw [if_neg hc]
      constructor
      · rintro (h | ⟨e', he', h⟩)
        · exact Or.inl h
        · exact Or.inr ⟨e', List.mem_cons.mpr (Or.inr he'), h⟩
      · rintro (h | ⟨e', he', hq, hcov, hx⟩)
        · exact Or.inl h
        · rcases List.mem_cons.mp he' with he' | he'
          · subst he'
            exact absurd ⟨hq, hcov⟩ hc
          · exact Or.inr ⟨e', he', hq, hcov, hx⟩

theorem computeCuts_length (st : Compositor) :
    st.computeCuts.length = st.size.height.toNat := by
  unfold Compositor.computeCuts
  rw [List.length_map, cutsFold_length, List.length_replicate]

/-- The characterisation of one row of the computed cuts: strictly
sorted, and an `Int` is a member exactly when it is 0, the screen width,
or an extent of a qualifying widget covering the row. -/
theorem computeCuts_row (st : Compositor) (y : Nat) (hy : y < st.size.height.toNat) :
    ∃ row, st.computeCuts[y]? = some row ∧
      row.Pairwise (· < ·) ∧
      ∀ a : Int, (a ∈ row ↔ a = 0 ∨ a = st.size.width ∨
        ∃ e ∈ st.map, cutQual st.size.region e ∧ rowCovers (clippedOf e) y ∧
          (a = (clippedOf e).x ∨ a = (clippedOf e).right)) := by
  have h0 : (List.replicate st.size.height.toNat
      ([0, st.size.width] : List Int))[y]? = some [0, st.size.width] := by
    rw [List.getElem?_replicate, if_pos hy]
  rcases cutsFold_mem st.size.region st.map _ y _ h0 with ⟨row, hrow, hmem⟩
  refine ⟨sortDedup row, ?_, sortDedup_pairwise row, ?_⟩
  · unfold Compositor.computeCuts
    rw [List.getElem?_map, hrow]
    rfl
  · intro a
    rw [mem_sortDedup, hmem a]
    constructor
    · rintro (h | h)
      · rcases List.mem_cons.mp h with h | h
        · exact Or.inl h
        · rcases List.mem_cons.mp h with h | h
          · exact Or.inr (Or.inl h)
          · cases h
      · exact Or.inr (Or.inr h)
    · rintro (h | h | h)
      · refine Or.inl ?_
        rw [h]
        exact List.mem_cons_self _ _
      · refine Or.inl ?_
        rw [h]
        exact List.mem_cons.mpr (Or.inr (List.mem_cons_self _ _))
      · exact Or.inr h

/-- A clipped region (an intersection) never has negative extent. -/
theorem clippedOf_nonneg (e : MapEntry) :
    0 ≤ (clippedOf e).width ∧ 0 ≤ (clippedOf e).height := by
  simp only [clippedOf, Region.intersection]
  constructor <;> omega

/-- A region contained in the screen region lies within its bounds. -/
theorem screen_contains_bounds (s : Size) (r : Region)
    (h : s.region.containsRegionB r = true) :
    0 ≤ r.x ∧ 0 ≤ r.y ∧ r.x + r.width ≤ s.width ∧ r.y + r.height ≤ s.height := by
  simp only [Region.containsRegionB, Size.region, Region.right, Region.bottom,
    Bool.and_eq_true, decide_eq_true_eq] at h
  exact ⟨by omega, by omega, by omega, by omega⟩

/-- Every cut of a row lies in `[0, width]` (for a screen with
non-negative extent). -/
theorem computeCuts_row_bounds (st : Compositor) (y : Nat)
    (hy : y < st.size.height.toNat) (hw : 0 ≤ st.size.width) :
    ∀ row, st.computeCuts[y]? = some row → ∀ a ∈ row, 0 ≤ a ∧ a ≤ st.size.width := by
  rcases computeCuts_row st y hy with ⟨row, hrow, _, hmem⟩
  intro row' hrow' a ha
  rw [hrow'] at hrow
  cases hrow
  rcases (hmem a).mp ha with h | h | ⟨e, _, hq, _, hx⟩
  · omega
  · omega
  · have hq2 := (Bool.and_eq_true _ _).mp hq
    have hcont := screen_contains_bounds st.size _ hq2.2
    have hnn := clippedOf_nonneg e
    unfold Region.right at hx
    rcases hx with hx | hx <;> subst hx <;>
    · constructor <;> omega

/-! ## Render lemmas: one widget's contribution -/

theorem computeCuts_row_head (st : Compositor) (y : Nat)
    (hy : y < st.size.height.toNat) (hw : 0 ≤ st.size.width) :
    ∀ row, st.computeCuts[y]? = some row → row.head? = some 0 := by
  intro row' hrow'
  rcases computeCuts_row st y hy with ⟨row, hrow, hp, hmem⟩
  rw [hrow'] at hrow
  injection hrow with hrow
  subst hrow
  exact head?_of_sorted_min _ 0 hp ((hmem 0).mpr (Or.inl rfl))
    (fun b hb => (computeCuts_row_bounds st y hy hw _ hrow' b hb).1)

theorem computeCuts_row_last (st : Compositor) (y : Nat)
    (hy : y < st.size.height.toNat) (hw : 0 ≤ st.size.width) :
    ∀ row, st.computeCuts[y]? = some row → row.getLast? = some st.size.width := by
  intro row' hrow'
  rcases computeCuts_row st y hy with ⟨row, hrow, hp, hmem⟩
  rw [hrow'] at hrow
  injection hrow with hrow
  subst hrow
  exact getLast?_of_sorted_max _ st.size.width hp
    ((hmem st.size.width).mpr (Or.inr (Or.inl rfl)))
    (fun b hb => (computeCuts_row_bounds st y hy hw _ hrow' b hb).2)

theorem containsRegionB_iff (r o : Region) :
    r.containsRegionB o = true ↔
      r.x ≤ o.x ∧ r.y ≤ o.y ∧ o.x + o.width ≤ r.x + r.width ∧
        o.y + o.height ≤ r.y + r.height := by
  simp only [Region.containsRegionB, Region.right, Region.bottom, Bool.and_eq_true,
    decide_eq_true_eq]
  omega

theorem containsB_iff (r : Region) (px py : Int) :
    r.containsB px py = true ↔
      r.x ≤ px ∧ px < r.x + r.width ∧ r.y ≤ py ∧ py < r.y + r.height := by
  simp only [Region.containsB, Region.right, Region.bottom, Bool.and_eq_true,
    decide_eq_true_eq]
  omega

theorem nonEmptyB_iff_pos (a b : Region) :
    (a.intersection b).nonEmptyB = true ↔
      0 < (a.intersection b).width ∧ 0 < (a.intersection b).height := by
  simp only [Region.nonEmptyB, Region.intersection_width, Region.intersection_height,
    Bool.and_eq_true, decide_eq_true_eq, ne_eq]
  omega

theorem intersection_comm_nonEmpty (a b : Region) :
    (a.intersection b).nonEmptyB = (b.intersection a).nonEmptyB := by
  apply Bool.eq_iff_iff.mpr
  simp only [Region.nonEmptyB, Region.intersection_width, Region.intersection_height,
    Region.right, Region.bottom, Bool.and_eq_true, decide_eq_true_eq, ne_eq]
  omega

@[simp] theorem divideSegs_pair (line : Line) (a b : Int) :
    divideSegs line [a, b] = [segSlice line 0 a.toNat, segSlice line a.toNat b.toNat] := rfl

@[simp] theorem getD_pair (x y d : α) : ([x, y].getD 1 d) = y := rfl

/-- The widget's `get_lines()` output matches its arranged region:
`region.height` lines of `region.width` cells each. -/
def linesMatch (e : MapEntry) : Prop :=
  (e.widget.lines.length : Int) = e.region.height ∧
    ∀ l ∈ e.widget.lines, (cellLen l : Int) = e.region.width

instance (e : MapEntry) : Decidable (linesMatch e) := by
  unfold linesMatch; infer_instance

/-- What `_get_renders` yields for one visible, non-transparent widget
whose clipped region is non-empty and whose lines match its region: the
pair `(region, clip)` plus lines that cover the clipped region
cell-for-cell with the widget's own content. -/
theorem renderOne_spec (e : MapEntry) (htr : e.widget.transparent = false)
    (hne : (clippedOf e).nonEmptyB = true) (hl : linesMatch e) :
    ∃ L, renderOne e = some (e.region, e.clip, L) ∧
      L.length = (clippedOf e).height.toNat ∧
      ∀ i : Nat, i < (clippedOf e).height.toNat →
        ∃ l, L[i]? = some l ∧ (cellLen l : Int) = (clippedOf e).width ∧
          ∀ j : Nat, (j : Int) < (clippedOf e).width →
            styleAtCol l j =
              widgetContentAt e ((clippedOf e).x + j) ((clippedOf e).y + i) := by
  have hpos : 0 < (clippedOf e).width ∧ 0 < (clippedOf e).height :=
    (nonEmptyB_iff_pos e.region e.clip).mp hne
  rcases hl with ⟨hlen, hwid⟩
  unfold renderOne
  rw [if_neg (by simp [htr])]
  by_cases hcont : e.clip.containsRegionB e.region = true
  · rw [if_pos hcont]
    rcases (containsRegionB_iff _ _).mp hcont with ⟨hc1, hc2, hc3, hc4⟩
    have hrcx : (clippedOf e).x = e.region.x := by
      simp only [clippedOf, Region.intersection_x]; omega
    have hrcy : (clippedOf e).y = e.region.y := by
      simp only [clippedOf, Region.intersection_y]; omega
    have hrcw : (clippedOf e).width = e.region.width := by
      simp only [clippedOf, Region.intersection_width, Region.right] at hpos ⊢
      omega
    have hrch : (clippedOf e).height = e.region.height := by
      simp only [clippedOf, Region.intersection_height, Region.bottom] at hpos ⊢
      omega
    refine ⟨e.widget.lines, rfl, by omega, ?_⟩
    intro i hi
    have hilt : i < e.widget.lines.length := by omega
    refine ⟨e.widget.lines[i], List.getElem?_eq_getElem hilt, ?_, ?_⟩
    · rw [hrcw]
      exact hwid _ (List.getElem_mem hilt)
    · intro j hj
      unfold widgetContentAt
      rw [hrcx, hrcy]
      have h1 : (e.region.y + (i : Int) - e.region.y).toNat = i := by omega
      have h2 : (e.region.x + (j : Int) - e.region.x).toNat = j := by omega
      rw [h1, h2, List.getElem?_eq_getElem hilt]
  · rw [if_neg hcont]
    have hov : e.clip.overlapsB e.region = true := by
      unfold Region.overlapsB
      rw [intersection_comm_nonEmpty]
      exact hne
    rw [if_pos hov]
    have hrcx : (clippedOf e).x = max e.region.x e.clip.x := rfl
    have hrcy : (clippedOf e).y = max e.region.y e.clip.y := rfl
    have hxle : e.region.x ≤ (clippedOf e).x := by rw [hrcx]; omega
    have hyle : e.region.y ≤ (clippedOf e).y := by rw [hrcy]; omega
    have hwle : (clippedOf e).x + (clippedOf e).width ≤ e.region.x + e.region.width := by
      simp only [clippedOf, Region.intersection_x, Region.intersection_width,
        Region.right] at hpos ⊢
      omega
    have hhle : (clippedOf e).y + (clippedOf e).height ≤ e.region.y + e.region.height := by
      simp only [clippedOf, Region.intersection_y, Region.intersection_height,
        Region.bottom] at hpos ⊢
      omega
    refine ⟨_, rfl, ?_, ?_⟩
    · simp only [List.length_map, List.length_take, List.length_drop]
      omega
    · intro i hi
      have hidx : ((clippedOf e).y - e.region.y).toNat + i < e.widget.lines.length := by
        omega
      have hget : ((e.widget.lines.drop ((clippedOf e).y - e.region.y).toNat).take
          (clippedOf e).height.toNat)[i]? =
          some (e.widget.lines[((clippedOf e).y - e.region.y).toNat + i]) := by
        rw [List.getElem?_take, if_pos hi, List.getElem?_drop]
        exact List.getElem?_eq_getElem hidx
      refine ⟨_, by rw [List.getElem?_map, hget]; rfl, ?_, ?_⟩
      · simp only [divideSegs_pair, getD_pair]
        have hraw := hwid _ (List.getElem_mem hidx)
        rw [cellLen_segSlice]
        omega
      · intro j hj
        simp only [divideSegs_pair, getD_pair]
        have hraw := hwid _ (List.getElem_mem hidx)
        rw [styleAtCol_segSlice _ _ _ _ (by omega)]
        unfold widgetContentAt
        have h1 : ((clippedOf e).y + (i : Int) - e.region.y).toNat =
            ((clippedOf e).y - e.region.y).toNat + i := by omega
        rw [h1, List.getElem?_eq_getElem hidx]
        congr 1
        omega

/-! ## Cut-bucket bookkeeping for the occlusion fill -/

/-- The element adjacent after `c` in a list. -/
def succIn : List Int → Int → Option Int
  | a :: b :: rest, c => if a = c then some b else succIn (b :: rest) c
  | _, _ => none

/-- The least cut strictly greater than `c` in a row. -/
def nextCutIn (row : List Int) (c : Int) : Option Int :=
  (row.filter (fun a => decide (c < a))).head?

/-- The greatest cut at most `x` in a row. -/
def prevCutIn (row : List Int) (x : Int) : Option Int :=
  (row.filter (fun a => decide (a ≤ x))).getLast?

theorem succIn_spec (l : List Int) (c next : Int) (hs : l.Pairwise (· < ·))
    (h : succIn l c = some next) :
    c ∈ l ∧ next ∈ l ∧ c < next ∧ ∀ a ∈ l, c < a → next ≤ a := by
  induction l with
  | nil => simp [succIn] at h
  | cons a rest ih =>
    cases rest with
    | nil => simp [succIn] at h
    | cons b rest' =>
      rcases List.pairwise_cons.mp hs with ⟨ha, hs'⟩
      by_cases hac : a = c
      · subst hac
        rw [succIn, if_pos rfl] at h
        injection h with h
        subst h
        refine ⟨List.mem_cons_self _ _, List.mem_cons.mpr (Or.inr (List.mem_cons_self _ _)),
          ha b (List.mem_cons_self _ _), ?_⟩
        intro x hx hcx
        rcases List.mem_cons.mp hx with hx | hx
        · omega
        · rcases List.mem_cons.mp hx with hx | hx
          · omega
          · have := (List.pairwise_cons.mp hs').1 x hx
            omega
      · rw [succIn, if_neg hac] at h
        rcases ih hs' h with ⟨h1, h2, h3, h4⟩
        refine ⟨List.mem_cons.mpr (Or.inr h1), List.mem_cons.mpr (Or.inr h2), h3, ?_⟩
        intro x hx hcx
        rcases List.mem_cons.mp hx with hx | hx
        · subst hx
          have := ha _ h1
          omega
        · exact h4 x hx hcx

theorem succIn_exists (l : List Int) (c b : Int) (hs : l.Pairwise (· < ·))
    (hc : c ∈ l) (hb : b ∈ l) (hcb : c < b) :
    ∃ next, succIn l c = some next ∧ next ≤ b := by
  induction l with
  | nil => cases hc
  | cons a rest ih =>
    rcases List.pairwise_cons.mp hs with ⟨ha, hs'⟩
    cases rest with
    | nil =>
      rcases List.mem_cons.mp hc with hc | hc
      · rcases List.mem_cons.mp hb with hb | hb
        · omega
        · cases hb
      · cases hc
    | cons d rest' =>
      by_cases hac : a = c
      · refine ⟨d, by rw [succIn, if_pos hac], ?_⟩
        rcases List.mem_cons.mp hb with hb | hb
        · omega
        · rcases List.mem_cons.mp hb with hb | hb
          · omega
          · have := (List.pairwise_cons.mp hs').1 _ hb
            omega
      · have hc' : c ∈ d :: rest' := by
          rcases List.mem_cons.mp hc with hc | hc
          · exact absurd hc.symm hac
          · exact hc
        have hb' : b ∈ d :: rest' := by
          rcases List.mem_cons.mp hb with hb | hb
          · subst hb
            have := ha _ hc'
            omega
          · exact hb
        rcases ih hs' hc' hb' with ⟨next, hn, hnb⟩
        exact ⟨next, by rw [succIn, if_neg hac]; exact hn, hnb⟩

theorem filter_pairwise_lt (l : List Int) (p : Int → Bool) (hs : l.Pairwise (· < ·)) :
    (l.filter p).Pairwise (· < ·) := List.Pairwise.filter p hs

/-- The successor within the filtered window `[lo, hi]` of a sorted row is
the row's global successor, provided the window's upper bound is itself in
the row and the successor stays inside. -/
theorem succIn_filter_nextCut (row : List Int) (lo hi c next : Int)
    (hs : row.Pairwise (· < ·))
    (h : succIn (row.filter (fun a => decide (hi ≥ a) && decide (a ≥ lo))) c = some next) :
    nextCutIn row c = some next := by
  set fc := row.filter (fun a => decide (hi ≥ a) && decide (a ≥ lo)) with hfc
  have hfs : fc.Pairwise (· < ·) := filter_pairwise_lt _ _ hs
  rcases succIn_spec fc c next hfs h with ⟨hcm, hnm, hcn, hmin⟩
  have hcrow : c ∈ row := (List.mem_filter.mp hcm).1
  have hnrow : next ∈ row := (List.mem_filter.mp hnm).1
  have hnfc := (List.mem_filter.mp hnm).2
  simp only [Bool.and_eq_true, decide_eq_true_eq] at hnfc
  unfold nextCutIn
  apply head?_of_sorted_min _ next (filter_pairwise_lt _ _ hs)
  · rw [List.mem_filter]
    exact ⟨hnrow, by simp [hcn]⟩
  · intro b hb
    rw [List.mem_filter] at hb
    rcases hb with ⟨hbrow, hbc⟩
    simp only [decide_eq_true_eq] at hbc
    by_cases hbhi : b ≤ hi
    · have hblo : lo ≤ b := by
        have hcfc := (List.mem_filter.mp hcm).2
        simp only [Bool.and_eq_true, decide_eq_true_eq] at hcfc
        omega
      exact hmin b (List.mem_filter.mpr ⟨hbrow, by simp; omega⟩) hbc
    · omega

/-- `a` if it is `some`, else `b` (first-writer-wins combination). -/
def firstSome (a b : Option α) : Option α :=
  match a with
  | some x => some x
  | none => b

@[simp] theorem firstSome_none (b : Option α) : firstSome none b = b := rfl

@[simp] theorem firstSome_some (x : α) (b : Option α) :
    firstSome (some x) b = some x := rfl

theorem firstSome_assoc (a b c : Option α) :
    firstSome (firstSome a b) c = firstSome a (firstSome b c) := by
  cases a <;> rfl

@[simp] theorem firstSome_none_right (a : Option α) : firstSome a none = a := by
  cases a <;> rfl

/-- The pairing of cut columns with the slices of `divide` (first slice
dropped): the pair at column `c` is the slice running to the adjacent next
cut. -/
theorem zipDivide_find (line : Line) (first : Int) (fcs : List Int) (c : Int) :
    ((fcs.zip ((divideSegs line (fcs.map (fun a => a - first))).drop 1)).find?
        (fun p => p.1 = c)) =
      (succIn fcs c).map
        (fun next => (c, segSlice line (c - first).toNat (next - first).toNat)) := by
  induction fcs with
  | nil => simp [divideSegs, divideGo, succIn]
  | cons a rest ih =>
    cases rest with
    | nil => simp [divideSegs, divideGo, succIn]
    | cons b rest' =>
      have hstep : (divideSegs line (((a :: b :: rest').map (fun a => a - first)))).drop 1 =
          segSlice line (a - first).toNat (b - first).toNat ::
            (divideSegs line (((b :: rest').map (fun a => a - first)))).drop 1 := by
        simp [divideSegs, divideGo]
      rw [hstep, List.zip_cons_cons]
      by_cases hac : a = c
      · subst hac
        rw [List.find?_cons_of_pos _ (by simp)]
        rw [succIn, if_pos rfl]
        rfl
      · rw [List.find?_cons_of_neg _ (by simp [hac])]
        rw [succIn, if_neg hac]
        exact ih

/-- Finding row `n` in the zip of a y-range against the lines list. -/
theorem range_zip_find (L : List Line) (base : Int) (n : Nat) :
    ((((List.range L.length).map (fun (i : Nat) => base + (i : Int))).zip L).find?
        (fun p => p.1 = (n : Int))) =
      if base ≤ (n : Int) ∧ (n : Int) < base + L.length then
        (L[((n : Int) - base).toNat]?).map (fun l => ((n : Int), l))
      else none := by
  induction L generalizing base with
  | nil =>
    have h1 : (((List.range (List.length ([] : List Line))).map
        (fun (i : Nat) => base + (i : Int))).zip ([] : List Line)) = [] := rfl
    rw [h1, List.find?_nil]
    split
    · rename_i hcond
      simp only [List.length_nil, Nat.cast_zero] at hcond
      omega
    · rfl
  | cons l ls ih =>
    rw [List.length_cons, List.range_succ_eq_map]
    simp only [List.map_cons, List.map_map]
    have hfun : ((fun (i : Nat) => base + (i : Int)) ∘ Nat.succ) =
        (fun (i : Nat) => (base + 1) + (i : Int)) := by
      funext i
      simp only [Function.comp_apply, Nat.succ_eq_add_one]
      push_cast
      ring
    rw [hfun, List.zip_cons_cons]
    by_cases hbn : base + ((0 : Nat) : Int) = (n : Int)
    · rw [List.find?_cons_of_pos _ (by simp only [decide_eq_true_eq]; exact hbn)]
      rw [if_pos (by push_cast at hbn ⊢; omega)]
      have hz : ((n : Int) - base).toNat = 0 := by push_cast at hbn; omega
      rw [hz, List.getElem?_cons_zero]
      rw [show Option.map (fun l => ((n : Int), l)) (some l) = some ((n : Int), l) from rfl]
      rw [hbn]
    · rw [List.find?_cons_of_neg _ (by simp only [decide_eq_true_eq]; exact hbn)]
      rw [ih (base + 1)]
      push_cast at hbn
      by_cases hcond : (base + 1 ≤ (n : Int) ∧ (n : Int) < base + 1 + (ls.length : Int))
      · rw [if_pos hcond, if_pos (by push_cast; omega)]
        have hidx : ((n : Int) - base).toNat = ((n : Int) - (base + 1)).toNat + 1 := by
          omega
        rw [hidx, List.getElem?_cons_succ]
      · rw [if_neg hcond, if_neg (by push_cast; omega)]

/-- The slices one widget's line contributes on row `n`, looked up at cut
column `c` (mirrors the write loop of `stepRow`). -/
def lineWrite (cuts : List (List Int)) (rr : Region) (n : Nat) (line : Line) (c : Int) :
    Option Line :=
  (cuts[n]?).bind (fun cutsY =>
    let fc := cutsY.filter (fun a => decide (rr.right ≥ a) && decide (a ≥ rr.x))
    let segs := if fc.length = 2 then [line]
                else (divideSegs line (fc.map (fun a => a - rr.x))).drop 1
    ((fc.zip segs).find? (fun p => p.1 = c)).map (fun p => p.2))

/-- What one render triple writes into bucket `(n, c)`, if anything. -/
def writeVal (cuts : List (List Int)) (t : Region × Region × List Line) (n : Nat)
    (c : Int) : Option Line :=
  let rr := t.1.intersection t.2.1
  (((rr.yRangeList.zip t.2.2).find? (fun p => p.1 = (n : Int)))).bind
    (fun p => lineWrite cuts rr n p.2 c)

/-- First writer into bucket `(n, c)` among a list of renders. -/
def firstWrite (cuts : List (List Int)) :
    List (Region × Region × List Line) → Nat → Int → Option Line
  | [], _, _ => none
  | t :: ts, n, c => firstSome (writeVal cuts t n c) (firstWrite cuts ts n c)

/-- Folding `setIfNone` over a write list: each bucket keeps its value if
filled, else takes the first write targeting its key. -/
theorem foldl_setIfNone (writes : List (Int × Line)) (row : RowChops) :
    writes.foldl (fun r p => setIfNone r p.1 p.2) row =
      row.map (fun q =>
        (q.1, firstSome q.2 (((writes.find? (fun p => p.1 = q.1)).map (fun p => p.2))))) := by
  induction writes generalizing row with
  | nil =>
    simp only [List.foldl_nil, List.find?_nil, Option.map_none', firstSome_none_right]
    have hid : (fun q : Int × Option Line => (q.1, q.2)) = id := funext (fun q => rfl)
    rw [hid, List.map_id]
  | cons w ws ih =>
    simp only [List.foldl_cons]
    rw [ih]
    unfold setIfNone
    rw [List.map_map]
    apply List.map_congr_left
    intro q _
    simp only [Function.comp_apply]
    by_cases h1 : q.1 = w.1 ∧ q.2 = none
    · rw [if_pos h1]
      rcases h1 with ⟨hk, hv⟩
      rw [List.find?_cons_of_pos _ (by simp [hk])]
      rw [hv]
      rfl
    · rw [if_neg h1]
      rcases hq2 : q.2 with _ | u
      · have hk : ¬ q.1 = w.1 := by
          intro hk
          exact h1 ⟨hk, hq2⟩
        rw [List.find?_cons_of_neg _ (by simp; omega)]
      · simp only [hq2, firstSome_some]

/-- The left extent never exceeds the right extent of an intersection. -/
theorem intersection_x_le_right (a b : Region) :
    (a.intersection b).x ≤ (a.intersection b).right := by
  simp only [Region.right, Region.intersection_x, Region.intersection_width]
  omega

/-- The per-render success and effect conditions: every row the render
touches is a real screen row whose cut list contains the render's left
extent. -/
def goodTriple (cuts : List (List Int)) (t : Region × Region × List Line) : Prop :=
  ∀ p ∈ ((t.1.intersection t.2.1).yRangeList.zip t.2.2),
    0 ≤ p.1 ∧ p.1 < (cuts.length : Int) ∧
      ∀ cutsY, cuts[p.1.toNat]? = some cutsY → (t.1.intersection t.2.1).x ∈ cutsY

/-- The representation invariant of the chop table relative to a bucket
value function. -/
def ChopsRep (cuts : List (List Int)) (chops : Chops) (g : Nat → Int → Option Line) :
    Prop :=
  chops.length = cuts.length ∧
    ∀ (n : Nat) cutsY, cuts[n]? = some cutsY →
      chops[n]? = some (cutsY.map (fun c => (c, g n c)))

theorem ChopsRep.ext {cuts chops g g'} (h : ChopsRep cuts chops g)
    (hgg : ∀ n c, g n c = g' n c) : ChopsRep cuts chops g' := by
  refine ⟨h.1, fun n cutsY hc => ?_⟩
  rw [h.2 n cutsY hc]
  congr 1
  apply List.map_congr_left
  intro c _
  rw [hgg n c]

theorem stepRow_spec (cuts : List (List Int)) (chops : Chops) (rr : Region) (y : Int)
    (line : Line) (g : Nat → Int → Option Line)
    (hrep : ChopsRep cuts chops g)
    (hy0 : 0 ≤ y) (hylt : y < (cuts.length : Int))
    (hfc : ∀ cutsY, cuts[y.toNat]? = some cutsY → rr.x ∈ cutsY)
    (hwx : rr.x ≤ rr.right) :
    ∃ chops', stepRow cuts rr.x rr.right chops y line = some chops' ∧
      ChopsRep cuts chops' (fun n c =>
        if n = y.toNat then firstSome (g n c) (lineWrite cuts rr n line c)
        else g n c) := by
  rcases hrep with ⟨hlen, hrep⟩
  have hyn : y.toNat < cuts.length := by omega
  obtain ⟨cutsY, hcY⟩ : ∃ cY, cuts[y.toNat]? = some cY :=
    ⟨_, List.getElem?_eq_getElem hyn⟩
  have hrowY := hrep y.toNat cutsY hcY
  have hpgetc : pyGet cuts y = some cutsY := by
    rw [pyGet_nonneg _ _ hy0 (by omega), List.get?_eq_getElem?, hcY]
  have hpgetch : pyGet chops y = some (cutsY.map (fun c => (c, g y.toNat c))) := by
    rw [pyGet_nonneg _ _ hy0 (by rw [hlen]; omega), List.get?_eq_getElem?, hrowY]
  set fc := cutsY.filter (fun c => decide (rr.right ≥ c) && decide (c ≥ rr.x)) with hfcdef
  have hxfc : rr.x ∈ fc := by
    rw [hfcdef, List.mem_filter]
    refine ⟨hfc cutsY hcY, ?_⟩
    simp only [Bool.and_eq_true, decide_eq_true_eq]
    omega
  have hfcne : fc.isEmpty = false := by
    cases hfcl : fc with
    | nil => rw [hfcl] at hxfc; cases hxfc
    | cons a rest => rfl
  set segsVal := if fc.length = 2 then [line]
    else (divideSegs line (fc.map (fun c => c - rr.x))).drop 1 with hsegsval
  have hif : (if fc.length = 2 then some [line]
      else if fc.isEmpty = true then none
      else some ((divideSegs line (fc.map (fun c => c - rr.x))).drop 1)) = some segsVal := by
    by_cases h2 : fc.length = 2
    · rw [if_pos h2, hsegsval, if_pos h2]
    · rw [if_neg h2, hfcne, if_neg (by simp), hsegsval, if_neg h2]
  set newRow := cutsY.map (fun c =>
    (c, firstSome (g y.toNat c) (lineWrite cuts rr y.toNat line c))) with hnewrow
  have hwrites : (cutsY.map (fun c => (c, g y.toNat c))).map (fun q =>
      (q.1, firstSome q.2 ((((fc.zip segsVal).find? (fun p => p.1 = q.1)).map
        (fun p => p.2))))) = newRow := by
    rw [List.map_map, hnewrow]
    apply List.map_congr_left
    intro c _
    simp only [Function.comp_apply]
    congr 2
    simp only [lineWrite, hcY, Option.some_bind]
  refine ⟨chops.set y.toNat newRow, ?_, ?_, ?_⟩
  · simp only [stepRow, hpgetc, Option.some_bind]
    rw [← hfcdef]
    rw [hif]
    simp only [Option.some_bind, hpgetch]
    rw [foldl_setIfNone, hwrites]
    rw [pySet_nonneg _ _ _ hy0 (by rw [hlen]; omega)]
  · rw [List.length_set]
    exact hlen
  · intro n cutsN hcn
    rw [List.getElem?_set]
    by_cases hny : y.toNat = n
    · subst hny
      rw [if_pos rfl, if_pos (by omega)]
      have hEq : cutsN = cutsY := by
        rw [hcY] at hcn
        injection hcn with h
        exact h.symm
      subst hEq
      rw [hnewrow]
      congr 1
      apply List.map_congr_left
      intro c _
      simp
    · rw [if_neg hny, hrep n cutsN hcn]
      congr 1
      apply List.map_congr_left
      intro c _
      have hne : ¬ n = y.toNat := by omega
      simp [hne]

theorem zip_pairwise_ne (l1 : List Int) (l2 : List Line)
    (h : l1.Pairwise (fun a b => a ≠ b)) :
    (l1.zip l2).Pairwise (fun p q => p.1 ≠ q.1) := by
  induction l1 generalizing l2 with
  | nil => simp
  | cons a as ih =>
    cases l2 with
    | nil => simp
    | cons b bs =>
      rw [List.zip_cons_cons]
      rcases List.pairwise_cons.mp h with ⟨ha, has⟩
      refine List.pairwise_cons.mpr ⟨?_, ih bs has⟩
      intro q hq
      obtain ⟨q1, q2⟩ := q
      exact ha q1 (List.of_mem_zip hq).1

theorem yRangeList_pairwise (r : Region) :
    r.yRangeList.Pairwise (fun a b => a ≠ b) := by
  unfold Region.yRangeList
  refine List.Pairwise.map _ (fun a b (hab : a < b) => ?_) (List.pairwise_lt_range _)
  omega

theorem mem_yRangeList (r : Region) (a : Int) (ha : a ∈ r.yRangeList) :
    r.y ≤ a ∧ a < r.y + r.height := by
  unfold Region.yRangeList at ha
  rcases List.mem_map.mp ha with ⟨i, hi, rfl⟩
  rw [List.mem_range] at hi
  omega

theorem rowsFold_spec (cuts : List (List Int)) (rr : Region)
    (prs : List (Int × Line)) (chops : Chops) (g : Nat → Int → Option Line)
    (hrep : ChopsRep cuts chops g)
    (hprs : ∀ p ∈ prs, 0 ≤ p.1 ∧ p.1 < (cuts.length : Int) ∧
      ∀ cutsY, cuts[p.1.toNat]? = some cutsY → rr.x ∈ cutsY)
    (hwx : rr.x ≤ rr.right)
    (hnd : prs.Pairwise (fun p q => p.1 ≠ q.1)) :
    ∃ chops', optFoldl (fun ch (p : Int × Line) =>
        stepRow cuts rr.x rr.right ch p.1 p.2) chops prs = some chops' ∧
      ChopsRep cuts chops' (fun n c =>
        firstSome (g n c) ((prs.find? (fun p => p.1 = (n : Int))).bind
          (fun p => lineWrite cuts rr n p.2 c))) := by
  induction prs generalizing chops g with
  | nil =>
    refine ⟨chops, rfl, hrep.ext (fun n c => ?_)⟩
    simp only [List.find?_nil, Option.none_bind, firstSome_none_right]
  | cons p rest ih =>
    rcases hprs p (List.mem_cons_self p rest) with ⟨hp0, hplt, hpfc⟩
    rcases stepRow_spec cuts chops rr p.1 p.2 g hrep hp0 hplt hpfc hwx with
      ⟨chops1, hstep, hrep1⟩
    rcases ih chops1 _ hrep1
      (fun q hq => hprs q (List.mem_cons.mpr (Or.inr hq)))
      (List.pairwise_cons.mp hnd).2 with ⟨chops', hfold, hrep'⟩
    refine ⟨chops', ?_, hrep'.ext (fun n c => ?_)⟩
    · simp only [optFoldl, hstep]
      exact hfold
    · by_cases hpn : p.1 = (n : Int)
      · have hnn : n = p.1.toNat := by omega
        rw [List.find?_cons_of_pos _ (by simp [hpn])]
        have hrestnone : rest.find? (fun q => q.1 = (n : Int)) = none := by
          rw [List.find?_eq_none]
          intro q hq
          have := (List.pairwise_cons.mp hnd).1 q hq
          simp only [decide_eq_true_eq]
          omega
        rw [hrestnone, Option.none_bind, firstSome_none_right, if_pos hnn,
          Option.some_bind]
      · have hnn : ¬ n = p.1.toNat := by omega
        rw [List.find?_cons_of_neg _ (by simp [hpn])]
        rw [if_neg hnn]

theorem stepRender_spec (cuts : List (List Int)) (chops : Chops)
    (t : Region × Region × List Line) (g : Nat → Int → Option Line)
    (hrep : ChopsRep cuts chops g) (hgood : goodTriple cuts t) :
    ∃ chops', stepRender cuts chops t = some chops' ∧
      ChopsRep cuts chops' (fun n c => firstSome (g n c) (writeVal cuts t n c)) := by
  rcases rowsFold_spec cuts (t.1.intersection t.2.1)
      ((t.1.intersection t.2.1).yRangeList.zip t.2.2) chops g hrep hgood
      (intersection_x_le_right t.1 t.2.1)
      (zip_pairwise_ne _ _ (yRangeList_pairwise _)) with ⟨chops', hfold, hrep'⟩
  exact ⟨chops', hfold, hrep'.ext (fun n c => rfl)⟩

theorem renderFold_spec (cuts : List (List Int))
    (ts : List (Region × Region × List Line)) (chops : Chops)
    (g : Nat → Int → Option Line)
    (hrep : ChopsRep cuts chops g) (hgood : ∀ t ∈ ts, goodTriple cuts t) :
    ∃ chops', optFoldl (stepRender cuts) chops ts = some chops' ∧
      ChopsRep cuts chops' (fun n c => firstSome (g n c) (firstWrite cuts ts n c)) := by
  induction ts generalizing chops g with
  | nil =>
    exact ⟨chops, rfl, hrep.ext (fun n c => by simp [firstWrite])⟩
  | cons t ts ih =>
    rcases stepRender_spec cuts chops t g hrep (hgood t (List.mem_cons_self t ts)) with
      ⟨chops1, hstep, hrep1⟩
    rcases ih chops1 _ hrep1 (fun u hu => hgood u (List.mem_cons.mpr (Or.inr hu))) with
      ⟨chops', hfold, hrep'⟩
    refine ⟨chops', ?_, hrep'.ext (fun n c => ?_)⟩
    · simp only [optFoldl, hstep]
      exact hfold
    · rw [firstWrite, firstSome_assoc]

theorem renderChops_spec (st : Compositor)
    (hgood : ∀ t ∈ st.getRenders, goodTriple st.cuts t) :
    ∃ chops', st.renderChops = some chops' ∧
      ChopsRep st.cuts chops' (fun n c => firstWrite st.cuts st.getRenders n c) := by
  have hrep0 : ChopsRep st.cuts
      (st.cuts.map (fun cutSet => cutSet.map (fun c => (c, (none : Option Line)))))
      (fun _ _ => none) := by
    refine ⟨List.length_map _ _, fun n cutsY hcn => ?_⟩
    rw [List.getElem?_map, hcn]
    rfl
  rcases renderFold_spec st.cuts st.getRenders _ _ hrep0 hgood with ⟨chops', hfold, hrep'⟩
  refine ⟨chops', hfold, hrep'.ext (fun n c => by rw [firstSome_none])⟩

theorem cuts_of_cacheNone (st : Compositor) (h : st.cutsCache = none) :
    st.cuts = st.computeCuts := by
  rw [Compositor.cuts, h]
  rfl

theorem sorted_two_mem (l : List Int) (lo hi : Int) (hs : l.Pairwise (· < ·))
    (h2 : l.length = 2) (hlo : lo ∈ l) (hhi : hi ∈ l)
    (hbound : ∀ a ∈ l, lo ≤ a ∧ a ≤ hi) (hlohi : lo < hi) : l = [lo, hi] := by
  match l, h2 with
  | [u, v], _ =>
    have huv : u < v := (List.pairwise_cons.mp hs).1 v (List.mem_cons_self v [])
    have hu := hbound u (List.mem_cons_self _ _)
    have hv := hbound v (List.mem_cons.mpr (Or.inr (List.mem_cons_self _ _)))
    rcases List.mem_cons.mp hlo with h | h
    · rcases List.mem_cons.mp hhi with h' | h'
      · omega
      · rcases List.mem_cons.mp h' with h' | h'
        · subst h h'
          rfl
        · cases h'
    · rcases List.mem_cons.mp h with h | h
      · omega
      · cases h

/-- A bucket write always comes from a render whose clipped region covers
the written cell. -/
theorem writeVal_some_covers (cuts : List (List Int)) (e : MapEntry) (L : List Line)
    (hL : L.length = (clippedOf e).height.toNat)
    (hsorted : ∀ (m : Nat) cutsY, cuts[m]? = some cutsY → cutsY.Pairwise (· < ·))
    (n : Nat) (c : Int) (S : Line)
    (hw : writeVal cuts (e.region, e.clip, L) n c = some S) :
    (clippedOf e).containsB c (n : Int) = true := by
  have hnn := clippedOf_nonneg e
  unfold writeVal at hw
  simp only at hw
  rw [show (e.region.intersection e.clip) = clippedOf e from rfl] at hw
  rw [show (clippedOf e).yRangeList =
    (List.range L.length).map (fun (i : Nat) => (clippedOf e).y + (i : Int)) from by
      rw [hL]; rfl] at hw
  rw [range_zip_find] at hw
  by_cases hcond : (clippedOf e).y ≤ (n : Int) ∧
      (n : Int) < (clippedOf e).y + (L.length : Int)
  · rw [if_pos hcond] at hw
    rcases hget : L[((n : Int) - (clippedOf e).y).toNat]? with _ | line
    · rw [hget] at hw
      cases hw
    · rw [hget] at hw
      simp only [Option.map_some', Option.some_bind] at hw
      unfold lineWrite at hw
      rcases hcY : cuts[n]? with _ | cutsY
      · rw [hcY] at hw
        cases hw
      · rw [hcY] at hw
        simp only [Option.some_bind] at hw
        have hfs : (cutsY.filter (fun a =>
            decide ((clippedOf e).right ≥ a) && decide (a ≥ (clippedOf e).x))).Pairwise
              (· < ·) := filter_pairwise_lt _ _ (hsorted n cutsY hcY)
        set fc := cutsY.filter (fun a =>
          decide ((clippedOf e).right ≥ a) && decide (a ≥ (clippedOf e).x)) with hfcdef
        by_cases h2 : fc.length = 2
        · rw [if_pos h2] at hw
          match fc, h2, hfs, hfcdef with
          | [u, v], _, hfs2, hfcdef2 =>
            rw [List.zip_cons_cons, List.zip_nil_right] at hw
            rcases hud : (decide (u = c)) with _ | _
            · rw [List.find?_cons_of_neg _ (by rw [hud]; simp)] at hw
              simp only [List.find?_nil, Option.map_none'] at hw
              cases hw
            · rw [List.find?_cons_of_pos _ (by rw [hud])] at hw
              have huc : u = c := by simpa using hud
              have huv : u < v := (List.pairwise_cons.mp hfs2).1 v (List.mem_cons_self v [])
              have humem : u ∈ [u, v] := List.mem_cons_self _ _
              have hvmem : v ∈ [u, v] := List.mem_cons.mpr (Or.inr (List.mem_cons_self _ _))
              rw [hfcdef2] at humem hvmem
              have hu := List.mem_filter.mp humem
              have hv := List.mem_filter.mp hvmem
              simp only [Bool.and_eq_true, decide_eq_true_eq] at hu hv
              rw [containsB_iff]
              have hlen2 : ((clippedOf e).height.toNat : Int) = (clippedOf e).height := by
                omega
              rw [hL] at hcond
              unfold Region.right at hu hv
              constructor
              · omega
              · constructor
                · omega
                · constructor <;> omega
        · rw [if_neg h2] at hw
          rw [zipDivide_find] at hw
          rcases hsucc : succIn fc c with _ | next
          · rw [hsucc] at hw
            cases hw
          · rw [hsucc] at hw
            rcases succIn_spec fc c next hfs hsucc with ⟨hcm, hnm, hcn, _⟩
            rw [hfcdef] at hcm hnm
            have hcf := List.mem_filter.mp hcm
            have hnf := List.mem_filter.mp hnm
            simp only [Bool.and_eq_true, decide_eq_true_eq] at hcf hnf
            rw [containsB_iff]
            have hlen2 : ((clippedOf e).height.toNat : Int) = (clippedOf e).height := by
              omega
            rw [hL] at hcond
            unfold Region.right at hcf hnf
            constructor
            · omega
            · constructor
              · omega
              · constructor <;> omega
  · rw [if_neg hcond] at hw
    cases hw

/-- A visible, non-transparent widget whose clipped region covers cell
`(c, n)`, where `c` is a cut of row `n`, writes into bucket `(n, c)` a
slice that runs to the next cut and shows the widget's own content. -/
theorem writeVal_covering (cuts : List (List Int)) (e : MapEntry) (L : List Line)
    (hL : L.length = (clippedOf e).height.toNat)
    (hLc : ∀ i : Nat, i < (clippedOf e).height.toNat →
      ∃ l, L[i]? = some l ∧ (cellLen l : Int) = (clippedOf e).width ∧
        ∀ j : Nat, (j : Int) < (clippedOf e).width →
          styleAtCol l j = widgetContentAt e ((clippedOf e).x + j) ((clippedOf e).y + i))
    (n : Nat) (c : Int) (cutsY : List Int)
    (hcY : cuts[n]? = some cutsY) (hsY : cutsY.Pairwise (· < ·))
    (hxm : (clippedOf e).x ∈ cutsY) (hrm : (clippedOf e).right ∈ cutsY)
    (hcm : c ∈ cutsY)
    (hcov : (clippedOf e).containsB c (n : Int) = true) :
    ∃ S next, writeVal cuts (e.region, e.clip, L) n c = some S ∧
      nextCutIn cutsY c = some next ∧ next ≤ (clippedOf e).right ∧
      ((cellLen S : Int) = next - c) ∧
      ∀ j : Nat, (j : Int) < next - c →
        styleAtCol S j = widgetContentAt e (c + j) (n : Int) := by
  have hnn := clippedOf_nonneg e
  rcases (containsB_iff _ _ _).mp hcov with ⟨hx1, hx2, hy1, hy2⟩
  have hrow : ((n : Int) - (clippedOf e).y).toNat < (clippedOf e).height.toNat := by
    omega
  rcases hLc _ hrow with ⟨line, hlineget, hlinelen, hlinesty⟩
  have hrowcast : (clippedOf e).y + (((n : Int) - (clippedOf e).y).toNat : Int) = (n : Int) := by
    omega
  unfold writeVal
  simp only
  rw [show (e.region.intersection e.clip) = clippedOf e from rfl]
  rw [show (clippedOf e).yRangeList =
    (List.range L.length).map (fun (i : Nat) => (clippedOf e).y + (i : Int)) from by
      rw [hL]; rfl]
  rw [range_zip_find, if_pos (by rw [hL]; constructor <;> omega), hlineget]
  simp only [Option.map_some', Option.some_bind]
  unfold lineWrite
  rw [hcY]
  simp only [Option.some_bind]
  set fc := cutsY.filter (fun a =>
    decide ((clippedOf e).right ≥ a) && decide (a ≥ (clippedOf e).x)) with hfcdef
  have hfs : fc.Pairwise (· < ·) := filter_pairwise_lt _ _ hsY
  have hxfc : (clippedOf e).x ∈ fc := by
    rw [hfcdef, List.mem_filter]
    refine ⟨hxm, ?_⟩
    simp only [Bool.and_eq_true, decide_eq_true_eq]
    unfold Region.right
    omega
  have hrfc : (clippedOf e).right ∈ fc := by
    rw [hfcdef, List.mem_filter]
    refine ⟨hrm, ?_⟩
    simp only [Bool.and_eq_true, decide_eq_true_eq]
    unfold Region.right
    omega
  have hcfc : c ∈ fc := by
    rw [hfcdef, List.mem_filter]
    refine ⟨hcm, ?_⟩
    simp only [Bool.and_eq_true, decide_eq_true_eq]
    unfold Region.right
    omega
  have hbound : ∀ a ∈ fc, (clippedOf e).x ≤ a ∧ a ≤ (clippedOf e).right := by
    intro a ha
    rw [hfcdef, List.mem_filter] at ha
    rcases ha with ⟨_, ha⟩
    simp only [Bool.and_eq_true, decide_eq_true_eq] at ha
    omega
  by_cases h2 : fc.length = 2
  · rw [if_pos h2]
    have hfceq : fc = [(clippedOf e).x, (clippedOf e).right] :=
      sorted_two_mem fc _ _ hfs h2 hxfc hrfc hbound (by unfold Region.right; omega)
    have hceq : c = (clippedOf e).x := by
      rw [hfceq] at hcfc
      rcases List.mem_cons.mp hcfc with h | h
      · exact h
      · rcases List.mem_cons.mp h with h | h
        · unfold Region.right at h
          omega
        · cases h
    refine ⟨line, (clippedOf e).right, ?_, ?_, le_refl _, ?_, ?_⟩
    · rw [hfceq, List.zip_cons_cons, List.zip_nil_right]
      rw [List.find?_cons_of_pos _ (by simp [hceq])]
      rfl
    · apply succIn_filter_nextCut cutsY (clippedOf e).x (clippedOf e).right c _ hsY
      rw [← hfcdef, hfceq, hceq]
      rw [succIn, if_pos rfl]
    · unfold Region.right
      omega
    · intro j hj
      rw [hlinesty j (by unfold Region.right at hj; omega)]
      rw [hrowcast, hceq]
  · rw [if_neg h2]
    rw [zipDivide_find]
    have hclt : c < (clippedOf e).right := hx2
    rcases succIn_exists fc c _ hfs hcfc hrfc hclt with ⟨next, hsucc, hnle⟩
    rcases succIn_spec fc c next hfs hsucc with ⟨_, hnmem, hcn, _⟩
    rw [hsucc]
    refine ⟨_, next, rfl, ?_, hnle, ?_, ?_⟩
    · exact succIn_filter_nextCut cutsY (clippedOf e).x (clippedOf e).right c next hsY
        (by rw [← hfcdef]; exact hsucc)
    · rw [cellLen_segSlice]
      have hb := hbound next hnmem
      unfold Region.right at hb
      omega
    · intro j hj
      have hb := hbound next hnmem
      unfold Region.right at hb
      rw [styleAtCol_segSlice _ _ _ _ (by omega)]
      have hidx : (c - (clippedOf e).x).toNat + j =
          (((c - (clippedOf e).x).toNat + j : Nat) : Int).toNat := by omega
      rw [hlinesty ((c - (clippedOf e).x).toNat + j) (by push_cast; omega)]
      rw [hrowcast]
      congr 1
      push_cast
      omega

/-! ## Well-formedness of a compositor state -/

/-- The state facts the render theorems assume, all established by the
real pipeline: a cold cut cache, a non-negative screen, distinct map
keys, and every visible opaque widget either qualifying for the cut
lists (with lines matching its region) or covering no row. -/
def Compositor.WF (st : Compositor) : Prop :=
  st.cutsCache = none ∧ 0 ≤ st.size.width ∧ 0 ≤ st.size.height ∧
    (mapKeys st.map).Nodup ∧
    ∀ e ∈ st.map, e.widget.visible = true → e.widget.transparent = false →
      (linesMatch e ∧ (cutQual st.size.region e = true ∨ (clippedOf e).height ≤ 0))

instance (st : Compositor) : Decidable st.WF := by
  unfold Compositor.WF; infer_instance

/-- What `_get_renders` sorts: the visible map entries, frontmost first. -/
def sortedRenderList (st : Compositor) : List MapEntry :=
  sortDescBy (fun e => e.order) (st.map.filter (fun e => e.widget.visible))

/-- What one map entry writes into bucket `(n, c)`, if anything. -/
def entryWrite (cuts : List (List Int)) (e : MapEntry) (n : Nat) (c : Int) :
    Option Line :=
  (renderOne e).bind (fun t => writeVal cuts t n c)

/-- First writer into bucket `(n, c)` among a list of map entries. -/
def firstWriteE (cuts : List (List Int)) : List MapEntry → Nat → Int → Option Line
  | [], _, _ => none
  | e :: es, n, c => firstSome (entryWrite cuts e n c) (firstWriteE cuts es n c)

theorem getRenders_eq (st : Compositor) :
    st.getRenders = (sortedRenderList st).filterMap renderOne := by
  unfold Compositor.getRenders sortedRenderList
  by_cases h : st.map.isEmpty
  · rw [if_pos h, List.isEmpty_iff.mp h]
    rfl
  · rw [if_neg h]

theorem renderOne_some_opaque (e : MapEntry) (t : Region × Region × List Line)
    (h : renderOne e = some t) : e.widget.transparent = false := by
  cases hb : e.widget.transparent
  · rfl
  · exfalso
    unfold renderOne at h
    rw [hb] at h
    simp at h

theorem renderOne_shape (e : MapEntry) (t : Region × Region × List Line)
    (h : renderOne e = some t) : ∃ L, t = (e.region, e.clip, L) := by
  unfold renderOne at h
  split_ifs at h
  · exact ⟨e.widget.lines, (Option.some.inj h).symm⟩
  · exact ⟨_, (Option.some.inj h).symm⟩

theorem firstWrite_filterMap (cuts : List (List Int)) (sl : List MapEntry)
    (n : Nat) (c : Int) :
    firstWrite cuts (sl.filterMap renderOne) n c = firstWriteE cuts sl n c := by
  induction sl with
  | nil => rfl
  | cons e es ih =>
    rcases hre : renderOne e with _ | t
    · rw [List.filterMap_cons_none hre, ih]
      simp only [firstWriteE, entryWrite, hre, Option.none_bind, firstSome_none]
    · rw [List.filterMap_cons_some hre]
      simp only [firstWrite, firstWriteE, entryWrite, hre, Option.some_bind, ih]

theorem firstWriteE_isSome (cuts : List (List Int)) (sl : List MapEntry)
    (n : Nat) (c : Int) (e : MapEntry) (he : e ∈ sl) (S : Line)
    (hw : entryWrite cuts e n c = some S) :
    ∃ S', firstWriteE cuts sl n c = some S' := by
  induction sl with
  | nil => cases he
  | cons a as ih =>
    rcases List.mem_cons.mp he with h | h
    · subst h
      exact ⟨S, by simp only [firstWriteE, hw, firstSome_some]⟩
    · rcases hea : entryWrite cuts a n c with _ | S0
      · rcases ih h with ⟨S', hS'⟩
        exact ⟨S', by simp only [firstWriteE, hea, firstSome_none, hS']⟩
      · exact ⟨S0, by simp only [firstWriteE, hea, firstSome_some]⟩

/-- The first writer of a bucket: it wrote the bucket's value, and no
entry of the list that writes the bucket sorts strictly above it. -/
theorem firstWriteE_spec (cuts : List (List Int)) (sl : List MapEntry)
    (n : Nat) (c : Int)
    (hp : sl.Pairwise (fun a b => ltLex a.order b.order = false)) (S : Line)
    (hw : firstWriteE cuts sl n c = some S) :
    ∃ e ∈ sl, entryWrite cuts e n c = some S ∧
      ∀ A ∈ sl, entryWrite cuts A n c ≠ none → ltLex e.order A.order = false := by
  induction sl with
  | nil => simp [firstWriteE] at hw
  | cons e es ih =>
    simp only [firstWriteE] at hw
    rcases hew : entryWrite cuts e n c with _ | S0
    · rw [hew, firstSome_none] at hw
      rcases ih (List.pairwise_cons.mp hp).2 hw with ⟨e', he', hwe', hmin⟩
      refine ⟨e', List.mem_cons.mpr (Or.inr he'), hwe', ?_⟩
      intro A hA hAw
      rcases List.mem_cons.mp hA with h | h
      · exact absurd (h ▸ hew) hAw
      · exact hmin A h hAw
    · rw [hew, firstSome_some] at hw
      refine ⟨e, List.mem_cons_self e es, by rw [hew, Option.some.inj hw], ?_⟩
      intro A hA _
      rcases List.mem_cons.mp hA with h | h
      · rw [h]
        exact ltLex_irrefl _
      · exact (List.pairwise_cons.mp hp).1 A h

theorem sortedRenderList_pairwise (st : Compositor) :
    (sortedRenderList st).Pairwise (fun a b => ltLex a.order b.order = false) :=
  pairwise_sortDescBy (fun e : MapEntry => e.order) (st.map.filter (fun e => e.widget.visible))

theorem mem_sortedRenderList (st : Compositor) (e : MapEntry) :
    e ∈ sortedRenderList st ↔ e ∈ st.map ∧ e.widget.visible = true := by
  unfold sortedRenderList
  rw [(perm_sortDescBy (fun e : MapEntry => e.order)
    (st.map.filter (fun e => e.widget.visible))).mem_iff, List.mem_filter]

theorem cuts_row_sorted (st : Compositor) (hc : st.cutsCache = none) :
    ∀ (m : Nat) (row : List Int), st.cuts[m]? = some row → row.Pairwise (· < ·) := by
  intro m row hr
  rw [cuts_of_cacheNone st hc] at hr
  have hm : m < st.computeCuts.length := by
    by_contra h'
    rw [List.getElem?_eq_none (by omega)] at hr
    cases hr
  rw [computeCuts_length] at hm
  rcases computeCuts_row st m hm with ⟨row', hrow', hp, _⟩
  rw [hrow'] at hr
  injection hr with hr
  rw [← hr]
  exact hp

/-- A map entry that writes some bucket is opaque, qualifies for the cut
lists, and its clipped region covers the bucket's cell. -/
theorem entryWrite_some_spec (st : Compositor) (hwf : st.WF) (e : MapEntry)
    (he : e ∈ st.map) (hv : e.widget.visible = true)
    (n : Nat) (c : Int) (S : Line)
    (hw : entryWrite st.cuts e n c = some S) :
    e.widget.transparent = false ∧ cutQual st.size.region e = true ∧
      (clippedOf e).containsB c (n : Int) = true := by
  unfold entryWrite at hw
  rcases hre : renderOne e with _ | t
  · rw [hre] at hw
    cases hw
  · rw [hre, Option.some_bind] at hw
    have htr := renderOne_some_opaque e t hre
    rcases hwf.2.2.2.2 e he hv htr with ⟨hlm, hq⟩
    rcases renderOne_shape e t hre with ⟨L0, hL0⟩
    rcases hq with hq | hq
    · have hne : (clippedOf e).nonEmptyB = true := ((Bool.and_eq_true _ _).mp hq).1
      rcases renderOne_spec e htr hne hlm with ⟨L, hre', hL, _⟩
      rw [hre] at hre'
      have hLL : t = (e.region, e.clip, L) := Option.some.inj hre'.symm |>.symm
      rw [hLL] at hw
      exact ⟨htr, hq, writeVal_some_covers st.cuts e L hL
        (cuts_row_sorted st hwf.1) n c S hw⟩
    · exfalso
      have hempty : (clippedOf e).yRangeList = [] := by
        unfold Region.yRangeList
        rw [show (clippedOf e).height.toNat = 0 from by omega]
        rfl
      rw [hL0] at hw
      unfold writeVal at hw
      simp only at hw
      rw [show e.region.intersection e.clip = clippedOf e from rfl, hempty] at hw
      simp at hw

/-- A visible opaque entry whose clipped region covers cell `(c, n)`,
where `c` is a cut of row `n`, writes a slice running to the next cut
that shows the entry's widget content. -/
theorem entryWrite_covering (st : Compositor) (hwf : st.WF) (e : MapEntry)
    (he : e ∈ st.map) (hv : e.widget.visible = true)
    (htr : e.widget.transparent = false)
    (n : Nat) (cutsY : List Int) (hcY : st.cuts[n]? = some cutsY)
    (c : Int) (hc : c ∈ cutsY)
    (hcov : (clippedOf e).containsB c (n : Int) = true) :
    ∃ S next, entryWrite st.cuts e n c = some S ∧
      nextCutIn cutsY c = some next ∧ next ≤ (clippedOf e).right ∧
      ((cellLen S : Int) = next - c) ∧
      ∀ j : Nat, (j : Int) < next - c →
        styleAtCol S j = widgetContentAt e (c + j) (n : Int) := by
  rcases hwf.2.2.2.2 e he hv htr with ⟨hlm, hq⟩
  rcases (containsB_iff _ _ _).mp hcov with ⟨hx1, hx2, hy1, hy2⟩
  have hnn := clippedOf_nonneg e
  have hq : cutQual st.size.region e = true := by
    rcases hq with hq | hq
    · exact hq
    · omega
  have hne : (clippedOf e).nonEmptyB = true := ((Bool.and_eq_true _ _).mp hq).1
  have hcontained := ((Bool.and_eq_true _ _).mp hq).2
  rcases renderOne_spec e htr hne hlm with ⟨L, hre, hL, hLc⟩
  -- the row index is a real screen row
  have hn : n < st.computeCuts.length := by
    by_contra h'
    rw [cuts_of_cacheNone st hwf.1, List.getElem?_eq_none (by omega)] at hcY
    cases hcY
  rw [computeCuts_length] at hn
  rcases computeCuts_row st n hn with ⟨row, hrow, _, hmem⟩
  rw [cuts_of_cacheNone st hwf.1] at hcY
  rw [hcY] at hrow
  injection hrow with hrow
  subst hrow
  have hrc : rowCovers (clippedOf e) n := by
    unfold rowCovers
    constructor <;> omega
  have hxm : (clippedOf e).x ∈ cutsY :=
    (hmem _).mpr (Or.inr (Or.inr ⟨e, he, hq, hrc, Or.inl rfl⟩))
  have hrm : (clippedOf e).right ∈ cutsY :=
    (hmem _).mpr (Or.inr (Or.inr ⟨e, he, hq, hrc, Or.inr rfl⟩))
  rcases writeVal_covering st.cuts e L hL hLc n c cutsY
      (by rw [cuts_of_cacheNone st hwf.1]; exact hcY)
      (cuts_row_sorted st hwf.1 n cutsY (by rw [cuts_of_cacheNone st hwf.1]; exact hcY))
      hxm hrm hc hcov with ⟨S, next, hwv, hnext, hle, hlen, hcontent⟩
  refine ⟨S, next, ?_, hnext, hle, hlen, hcontent⟩
  unfold entryWrite
  rw [hre, Option.some_bind]
  exact hwv

/-- The value of a filled cut bucket: it was written by a visible opaque
map entry covering the bucket's cell that no other covering entry sorts
above, it runs exactly to the next cut, and it shows that entry's own
widget content. -/
theorem bucket_spec (st : Compositor) (hwf : st.WF) (n : Nat) (cutsY : List Int)
    (hcY : st.cuts[n]? = some cutsY) (c : Int) (hc : c ∈ cutsY) (S : Line)
    (hfw : firstWrite st.cuts st.getRenders n c = some S) :
    ∃ e ∈ st.map, e.widget.visible = true ∧ e.widget.transparent = false ∧
      (clippedOf e).containsB c (n : Int) = true ∧
      (∀ B ∈ st.map, B.widget.visible = true → B.widget.transparent = false →
        (clippedOf B).containsB c (n : Int) = true → ltLex e.order B.order = false) ∧
      ∃ next, nextCutIn cutsY c = some next ∧ next ≤ (clippedOf e).right ∧
        ((cellLen S : Int) = next - c) ∧
        ∀ j : Nat, (j : Int) < next - c →
          styleAtCol S j = widgetContentAt e (c + j) (n : Int) := by
  rw [getRenders_eq, firstWrite_filterMap] at hfw
  rcases firstWriteE_spec st.cuts (sortedRenderList st) n c
      (sortedRenderList_pairwise st) S hfw with ⟨e, hesl, hew, hmin⟩
  rcases (mem_sortedRenderList st e).mp hesl with ⟨hemap, hev⟩
  rcases entryWrite_some_spec st hwf e hemap hev n c S hew with ⟨hetr, _, hecov⟩
  refine ⟨e, hemap, hev, hetr, hecov, ?_, ?_⟩
  · intro B hB hBv hBtr hBcov
    rcases entryWrite_covering st hwf B hB hBv hBtr n cutsY hcY c hc hBcov with
      ⟨SB, _, hBw, _⟩
    exact hmin B ((mem_sortedRenderList st B).mpr ⟨hB, hBv⟩) (by rw [hBw]; simp)
  · rcases entryWrite_covering st hwf e hemap hev hetr n cutsY hcY c hc hecov with
      ⟨S', next, hew', hnext, hle, hlen, hcontent⟩
    rw [hew] at hew'
    rw [Option.some.inj hew']
    exact ⟨next, hnext, hle, hlen, hcontent⟩

/-- A bucket whose cell some visible opaque entry covers is filled. -/
theorem bucket_exists (st : Compositor) (hwf : st.WF) (n : Nat) (cutsY : List Int)
    (hcY : st.cuts[n]? = some cutsY) (c : Int) (hc : c ∈ cutsY) (B : MapEntry)
    (hB : B ∈ st.map) (hBv : B.widget.visible = true)
    (hBtr : B.widget.transparent = false)
    (hBcov : (clippedOf B).containsB c (n : Int) = true) :
    ∃ S, firstWrite st.cuts st.getRenders n c = some S := by
  rw [getRenders_eq, firstWrite_filterMap]
  rcases entryWrite_covering st hwf B hB hBv hBtr n cutsY hcY c hc hBcov with
    ⟨SB, _, hBw, _⟩
  exact firstWriteE_isSome st.cuts (sortedRenderList st) n c B
    ((mem_sortedRenderList st B).mpr ⟨hB, hBv⟩) SB hBw

/-- The bucket at the screen's right edge is never written: a writer
would have to cover a cell at column `width`. -/
theorem bucket_width_none (st : Compositor) (hwf : st.WF) (n : Nat) :
    firstWrite st.cuts st.getRenders n st.size.width = none := by
  rcases hfw : firstWrite st.cuts st.getRenders n st.size.width with _ | S
  · rfl
  · exfalso
    rw [getRenders_eq, firstWrite_filterMap] at hfw
    rcases firstWriteE_spec st.cuts (sortedRenderList st) n st.size.width
        (sortedRenderList_pairwise st) S hfw with ⟨e, hesl, hew, _⟩
    rcases (mem_sortedRenderList st e).mp hesl with ⟨hemap, hev⟩
    rcases entryWrite_some_spec st hwf e hemap hev n st.size.width S hew with
      ⟨_, hq, hecov⟩
    have hcont := screen_contains_bounds st.size _ ((Bool.and_eq_true _ _).mp hq).2
    rcases (containsB_iff _ _ _).mp hecov with ⟨_, hx2, _, _⟩
    omega

/-! ## Assembling a row from its buckets -/

theorem pairwise_lt_getElem (l : List Int) (hs : l.Pairwise (· < ·)) :
    ∀ (i j : Nat), i < j → ∀ (a b : Int), l[i]? = some a → l[j]? = some b → a < b := by
  induction l with
  | nil => intro i j _ a b ha; cases ha
  | cons x xs ih =>
    intro i j hij a b ha hb
    match i, j with
    | 0, j + 1 =>
        rw [List.getElem?_cons_zero] at ha
        rw [List.getElem?_cons_succ] at hb
        have hbm : b ∈ xs := by
          rcases List.getElem?_eq_some.mp hb with ⟨hj, hbe⟩
          rw [← hbe]
          exact List.getElem_mem hj
        rw [← Option.some.inj ha]
        exact (List.pairwise_cons.mp hs).1 b hbm
    | i + 1, j + 1 =>
        rw [List.getElem?_cons_succ] at ha hb
        exact ih (List.pairwise_cons.mp hs).2 i j (by omega) a b ha hb

/-- No element of a sorted list lies strictly between two adjacent
elements. -/
theorem no_between (l : List Int) (hs : l.Pairwise (· < ·)) (i : Nat) (ci ci1 : Int)
    (hi : l[i]? = some ci) (hi1 : l[i + 1]? = some ci1) (a : Int) (ha : a ∈ l) :
    ¬ (ci < a ∧ a < ci1) := by
  rcases List.mem_iff_getElem?.mp ha with ⟨j, hj⟩
  rintro ⟨h1, h2⟩
  rcases Nat.lt_trichotomy j (i + 1) with hlt | heq | hgt
  · have hji : j ≤ i := by omega
    rcases Nat.eq_or_lt_of_le hji with heq' | hlt'
    · rw [heq', hi] at hj
      have := Option.some.inj hj
      omega
    · have := pairwise_lt_getElem l hs j i hlt' a ci hj hi
      omega
  · rw [heq, hi1] at hj
    have := Option.some.inj hj
    omega
  · have := pairwise_lt_getElem l hs (i + 1) j hgt ci1 a hi1 hj
    omega

/-- In a sorted row, the next cut after the element at index `i` is the
element at index `i + 1`. -/
theorem nextCutIn_index (l : List Int) (hs : l.Pairwise (· < ·)) :
    ∀ (i : Nat) (ci : Int), l[i]? = some ci → nextCutIn l ci = l[i + 1]? := by
  induction l with
  | nil => intro i ci h; cases h
  | cons a rest ih =>
    intro i ci h
    match i with
    | 0 =>
        rw [List.getElem?_cons_zero] at h
        have hca : ci = a := (Option.some.inj h).symm
        subst hca
        unfold nextCutIn
        rw [List.filter_cons_of_neg (by simp)]
        rw [List.filter_eq_self.mpr (fun b hb => by
          simp only [decide_eq_true_eq]
          exact (List.pairwise_cons.mp hs).1 b hb)]
        rw [List.getElem?_cons_succ]
        exact (List.head?_eq_getElem? rest).trans rfl
    | i + 1 =>
        rw [List.getElem?_cons_succ] at h
        have hmem : ci ∈ rest := by
          rcases List.getElem?_eq_some.mp h with ⟨hj, hbe⟩
          rw [← hbe]
          exact List.getElem_mem hj
        have hac : a < ci := (List.pairwise_cons.mp hs).1 ci hmem
        unfold nextCutIn
        rw [List.filter_cons_of_neg (by simp; omega)]
        rw [List.getElem?_cons_succ]
        exact ih (List.pairwise_cons.mp hs).2 i ci h

/-- A sorted list whose head is at most `x` and whose last element
exceeds `x` has an adjacent pair bracketing `x`. -/
theorem find_bucket (l : List Int) : l.Pairwise (· < ·) → ∀ (c0 W x : Int),
    l.head? = some c0 → l.getLast? = some W → c0 ≤ x → x < W →
    ∃ (i : Nat) (ci ci1 : Int), l[i]? = some ci ∧ l[i + 1]? = some ci1 ∧
      ci ≤ x ∧ x < ci1 := by
  induction l with
  | nil => intro _ c0 W x h0; cases h0
  | cons a rest ih =>
    intro hs c0 W x h0 hW hx0 hxW
    have hc0 : c0 = a := (Option.some.inj h0).symm
    subst hc0
    match rest with
    | [] =>
        rw [List.getLast?_singleton] at hW
        have : W = c0 := (Option.some.inj hW).symm
        omega
    | b :: rest' =>
        by_cases hxb : x < b
        · exact ⟨0, c0, b, by simp, by simp, hx0, hxb⟩
        · rcases ih (List.pairwise_cons.mp hs).2 b W x rfl
            (by rw [← hW]; exact List.getLast?_cons_cons.symm)
            (by omega) hxW with ⟨i, ci, ci1, hci, hci1, hle, hlt⟩
          exact ⟨i + 1, ci, ci1, by rw [List.getElem?_cons_succ]; exact hci,
            by rw [List.getElem?_cons_succ]; exact hci1, hle, hlt⟩

/-- Reading a column of an assembled row: when every bucket left of the
target is filled to exactly its cut gap, the flattened row at offset
`x - head` reads inside the target bucket's slice. -/
theorem rowWalk (g : Int → Option Line) : ∀ (l : List Int), l.Pairwise (· < ·) →
    ∀ (i : Nat) (ci : Int) (S : Line), l[i]? = some ci → g ci = some S →
    (∀ k : Nat, k < i → ∃ (ck ck1 : Int) (Sk : Line), l[k]? = some ck ∧
      l[k + 1]? = some ck1 ∧ g ck = some Sk ∧ (cellLen Sk : Int) = ck1 - ck) →
    ∀ (x c0 : Int), l.head? = some c0 → ci ≤ x → (x - ci < (cellLen S : Int)) →
    styleAtCol (l.filterMap g).flatten (x - c0).toNat = styleAtCol S (x - ci).toNat := by
  intro l
  induction l with
  | nil => intro _ i ci S h; cases h
  | cons a rest ih =>
    intro hs i ci S hci hgci hfill x c0 hc0 hcix hxlt
    rw [List.head?_cons] at hc0
    obtain rfl : a = c0 := Option.some.inj hc0
    cases i with
    | zero =>
        rw [List.getElem?_cons_zero] at hci
        obtain rfl : a = ci := Option.some.inj hci
        rw [List.filterMap_cons_some hgci, List.flatten_cons, styleAtCol_append,
          if_pos (by omega)]
    | succ k =>
        rw [List.getElem?_cons_succ] at hci
        rcases hfill 0 (by omega) with ⟨c0', c1, S0, hc0', hc1, hgS0, hlen0⟩
        rw [List.getElem?_cons_zero] at hc0'
        obtain rfl : a = c0' := Option.some.inj hc0'
        rcases hrd : rest with _ | ⟨b, rest'⟩
        · rw [hrd] at hc1
          simp at hc1
        · rw [hrd] at hc1
          obtain rfl : b = c1 := by simpa using hc1
          subst hrd
          have hbc : b ≤ ci := by
            cases Nat.eq_zero_or_pos k with
            | inl h0 =>
                subst h0
                rw [List.getElem?_cons_zero] at hci
                have := Option.some.inj hci
                omega
            | inr hpos =>
                have := pairwise_lt_getElem (b :: rest')
                  (List.pairwise_cons.mp hs).2 0 k hpos b ci
                  (by rw [List.getElem?_cons_zero]) hci
                omega
          rw [List.filterMap_cons_some hgS0, List.flatten_cons, styleAtCol_append,
            if_neg (by omega)]
          have hidx : (x - a).toNat - cellLen S0 = (x - b).toNat := by omega
          rw [hidx]
          exact ih (List.pairwise_cons.mp hs).2 k ci S hci hgci
            (fun m hm => by
              rcases hfill (m + 1) (by omega) with ⟨cm, cm1, Sm, hcm, hcm1, hgm, hlm⟩
              rw [List.getElem?_cons_succ] at hcm hcm1
              exact ⟨cm, cm1, Sm, hcm, hcm1, hgm, hlm⟩)
            x b (by rw [List.head?_cons]) hcix hxlt

/-- The total cell length of an assembled row: buckets filled to their
gaps from head to last (the last bucket empty) flatten to exactly the
row's extent. -/
theorem rowLen (g : Int → Option Line) : ∀ (l : List Int), l.Pairwise (· < ·) →
    (∀ k : Nat, k + 1 < l.length → ∃ (ck ck1 : Int) (Sk : Line), l[k]? = some ck ∧
      l[k + 1]? = some ck1 ∧ g ck = some Sk ∧ (cellLen Sk : Int) = ck1 - ck) →
    (∀ a : Int, l.getLast? = some a → g a = none) →
    ∀ (c0 cl : Int), l.head? = some c0 → l.getLast? = some cl →
    ((cellLen (l.filterMap g).flatten : Int) = cl - c0) := by
  intro l
  induction l with
  | nil => intro _ _ _ c0 cl h; cases h
  | cons a rest ih =>
    intro hs hfill hlast c0 cl hc0 hcl
    rw [List.head?_cons] at hc0
    obtain rfl : a = c0 := Option.some.inj hc0
    rcases hrd : rest with _ | ⟨b, rest'⟩
    · subst hrd
      rw [List.getLast?_singleton] at hcl
      obtain rfl : a = cl := Option.some.inj hcl
      have hga : g a = none := hlast a (by rw [List.getLast?_singleton])
      rw [List.filterMap_cons_none hga]
      simp
    · subst hrd
      rcases hfill 0 (by simp) with ⟨c0', c1, S0, hc0', hc1, hgS0, hlen0⟩
      rw [List.getElem?_cons_zero] at hc0'
      obtain rfl : a = c0' := Option.some.inj hc0'
      obtain rfl : b = c1 := by simpa using hc1
      rw [List.filterMap_cons_some hgS0, List.flatten_cons, cellLen_append]
      have hrec := ih (List.pairwise_cons.mp hs).2
        (fun m hm => by
          rcases hfill (m + 1) (by simp at hm ⊢; omega) with ⟨cm, cm1, Sm, hcm, hcm1, hgm, hlm⟩
          rw [List.getElem?_cons_succ] at hcm hcm1
          exact ⟨cm, cm1, Sm, hcm, hcm1, hgm, hlm⟩)
        (fun u hu => hlast u (by rw [← hu]; exact List.getLast?_cons_cons))
        b cl (by rw [List.head?_cons]) (by rw [← hcl]; exact List.getLast?_cons_cons.symm)
      push_cast
      push_cast at hrec
      omega

/-- Well-formedness gives the success conditions of the occlusion fill
for every render triple. -/
theorem wf_good (st : Compositor) (hwf : st.WF) :
    ∀ t ∈ st.getRenders, goodTriple st.cuts t := by
  intro t ht
  rw [getRenders_eq] at ht
  rcases List.mem_filterMap.mp ht with ⟨e, hesl, hre⟩
  rcases (mem_sortedRenderList st e).mp hesl with ⟨hemap, hev⟩
  have htr := renderOne_some_opaque e t hre
  rcases hwf.2.2.2.2 e hemap hev htr with ⟨hlm, hq⟩
  rcases renderOne_shape e t hre with ⟨L, hLt⟩
  subst hLt
  intro p hp
  have hp1 := (List.of_mem_zip hp).1
  simp only at hp1
  rw [show e.region.intersection e.clip = clippedOf e from rfl] at hp1
  have hyr := mem_yRangeList _ _ hp1
  have hqv : cutQual st.size.region e = true := by
    rcases hq with hq | hq
    · exact hq
    · omega
  have hcont := screen_contains_bounds st.size _ ((Bool.and_eq_true _ _).mp hqv).2
  have hH : 0 ≤ st.size.height := hwf.2.2.1
  have hlen : (st.cuts.length : Int) = st.size.height := by
    rw [cuts_of_cacheNone st hwf.1, computeCuts_length]
    omega
  refine ⟨by omega, by omega, ?_⟩
  intro cutsY hcY
  have hyn : p.1.toNat < st.size.height.toNat := by omega
  rcases computeCuts_row st p.1.toNat hyn with ⟨row, hrow, _, hmem⟩
  rw [cuts_of_cacheNone st hwf.1, hrow] at hcY
  injection hcY with hcY
  subst hcY
  rw [show (e.region, e.clip, L).1.intersection (e.region, e.clip, L).2.1 = clippedOf e
    from rfl]
  refine (hmem _).mpr (Or.inr (Or.inr ⟨e, hemap, hqv, ?_, Or.inl rfl⟩))
  unfold rowCovers
  constructor <;> omega

/-- Under well-formedness the render never raises: the chop table fills,
and an uncropped render assembles it whole. -/
theorem render_none_spec (st : Compositor) (hwf : st.WF) :
    ∃ chops, st.renderChops = some chops ∧
      st.render none = some (assembleChops chops) ∧
      ChopsRep st.cuts chops (fun n c => firstWrite st.cuts st.getRenders n c) := by
  rcases renderChops_spec st (wf_good st hwf) with ⟨chops, hchops, hrep⟩
  refine ⟨chops, hchops, ?_, hrep⟩
  unfold Compositor.render
  rw [hchops]
  simp only [Option.isSome_none, Bool.false_eq_true, false_and, if_neg (by simp : ¬ (False ∧ ¬ ((0 : Int) = 0 ∧ (⟨(0 : Int), 0, st.size.width, st.size.height⟩ : Region).right = st.size.width)))]
  have hlen : chops.length = st.size.height.toNat := by
    rw [hrep.1, cuts_of_cacheNone st hwf.1, computeCuts_length]
  congr 1
  rw [show ((⟨0, 0, st.size.width, st.size.height⟩ : Region).y.toNat) = 0 from rfl]
  rw [List.drop_zero]
  rw [show ((⟨0, 0, st.size.width, st.size.height⟩ : Region).bottom -
    (⟨0, 0, st.size.width, st.size.height⟩ : Region).y).toNat = st.size.height.toNat
    from by simp [Region.bottom]]
  rw [← hlen, List.take_length]
  exact if_neg not_false

/-- A screen row's cut list under well-formedness: sorted, `0` first,
`width` last, all cuts within the screen. -/
theorem cuts_row_full (st : Compositor) (hwf : st.WF) (n : Nat)
    (hn : n < st.size.height.toNat) :
    ∃ cutsY, st.cuts[n]? = some cutsY ∧ cutsY.Pairwise (· < ·) ∧
      cutsY.head? = some 0 ∧ cutsY.getLast? = some st.size.width ∧
      (∀ a ∈ cutsY, 0 ≤ a ∧ a ≤ st.size.width) := by
  rw [cuts_of_cacheNone st hwf.1]
  rcases computeCuts_row st n hn with ⟨row, hrow, hp, _⟩
  exact ⟨row, hrow, hp, computeCuts_row_head st n hn hwf.2.1 row hrow,
    computeCuts_row_last st n hn hwf.2.1 row hrow,
    computeCuts_row_bounds st n hn hwf.2.1 row hrow⟩

/-- When every column of screen row `n` is covered by some visible
opaque widget, every bucket of the row except the last is filled to
exactly its cut gap. -/
theorem row_filled (st : Compositor) (hwf : st.WF) (n : Nat)
    (hn : n < st.size.height.toNat) (cutsY : List Int)
    (hcY : st.cuts[n]? = some cutsY)
    (hcover : ∀ x' : Nat, x' < st.size.width.toNat →
      ∃ B ∈ st.map, B.widget.visible = true ∧ B.widget.transparent = false ∧
        (clippedOf B).containsB (x' : Int) (n : Int) = true) :
    ∀ k : Nat, k + 1 < cutsY.length →
      ∃ (ck ck1 : Int) (Sk : Line), cutsY[k]? = some ck ∧ cutsY[k + 1]? = some ck1 ∧
        firstWrite st.cuts st.getRenders n ck = some Sk ∧
        ((cellLen Sk : Int) = ck1 - ck) := by
  have hsorted := cuts_row_sorted st hwf.1 n cutsY hcY
  have hbounds : ∀ a ∈ cutsY, 0 ≤ a ∧ a ≤ st.size.width := by
    have h2 := hcY
    rw [cuts_of_cacheNone st hwf.1] at h2
    exact computeCuts_row_bounds st n hn hwf.2.1 cutsY h2
  intro k hk
  have hk1 : k < cutsY.length := by omega
  have hck : cutsY[k]? = some cutsY[k] := List.getElem?_eq_getElem hk1
  have hck1 : cutsY[k + 1]? = some cutsY[k + 1] := List.getElem?_eq_getElem hk
  have hlt : cutsY[k] < cutsY[k + 1] :=
    pairwise_lt_getElem cutsY hsorted k (k + 1) (by omega) _ _ hck hck1
  have hb0 := hbounds _ (List.getElem_mem hk1)
  have hb1 := hbounds _ (List.getElem_mem hk)
  rcases hcover (cutsY[k]).toNat (by omega) with ⟨B, hB, hBv, hBtr, hBcov⟩
  rw [Int.toNat_of_nonneg hb0.1] at hBcov
  rcases bucket_exists st hwf n cutsY hcY cutsY[k] (List.getElem_mem hk1)
      B hB hBv hBtr hBcov with ⟨Sk, hSk⟩
  rcases bucket_spec st hwf n cutsY hcY cutsY[k] (List.getElem_mem hk1) Sk hSk with
    ⟨e, _, _, _, _, _, next, hnext, _, hlen, _⟩
  rw [nextCutIn_index cutsY hsorted k cutsY[k] hck, hck1] at hnext
  have hnext' : next = cutsY[k + 1] := (Option.some.inj hnext).symm
  exact ⟨cutsY[k], cutsY[k + 1], Sk, hck, hck1, hSk, by omega⟩

/-- The assembled length of a fully covered screen row is exactly the
screen width. -/
theorem row_cellLen (st : Compositor) (hwf : st.WF) (n : Nat)
    (hn : n < st.size.height.toNat)
    (hcover : ∀ x' : Nat, x' < st.size.width.toNat →
      ∃ B ∈ st.map, B.widget.visible = true ∧ B.widget.transparent = false ∧
        (clippedOf B).containsB (x' : Int) (n : Int) = true)
    (chops : Chops)
    (hrep : ChopsRep st.cuts chops (fun n c => firstWrite st.cuts st.getRenders n c)) :
    ∃ rowc, chops[n]? = some rowc ∧
      ((cellLen ((rowc.filterMap (fun p => p.2)).flatten) : Int) = st.size.width) := by
  rcases cuts_row_full st hwf n hn with ⟨cutsY, hcY, hsorted, hhead, hlast, _⟩
  refine ⟨_, hrep.2 n cutsY hcY, ?_⟩
  rw [List.filterMap_map]
  have hfm : (fun c => (fun (p : Int × Option Line) => p.2) ((fun c =>
      (c, firstWrite st.cuts st.getRenders n c)) c)) =
      (fun c => firstWrite st.cuts st.getRenders n c) := rfl
  rw [show ((fun (p : Int × Option Line) => p.2) ∘ (fun c =>
      (c, firstWrite st.cuts st.getRenders n c))) =
      (fun c => firstWrite st.cuts st.getRenders n c) from rfl]
  have hres := rowLen (fun c => firstWrite st.cuts st.getRenders n c) cutsY hsorted
    (row_filled st hwf n hn cutsY hcY hcover)
    (fun a ha => by
      have : a = st.size.width := by
        rw [hlast] at ha
        exact (Option.some.inj ha).symm
      rw [this]
      exact bucket_width_none st hwf n)
    0 st.size.width hhead hlast
  omega

/-- Distinct map keys make the entry of a widget unique. -/
theorem nodup_entry_eq (m : List MapEntry) (hnd : (mapKeys m).Nodup)
    (e A : MapEntry) (he : e ∈ m) (hA : A ∈ m)
    (hid : e.widget.wid = A.widget.wid) : e = A := by
  unfold mapKeys at hnd
  induction m with
  | nil => cases he
  | cons c rest ih =>
    rw [List.map_cons, List.nodup_cons] at hnd
    rcases List.mem_cons.mp he with he' | he' <;> rcases List.mem_cons.mp hA with hA' | hA'
    · rw [he', hA']
    · exfalso
      subst he'
      exact hnd.1 (by rw [hid]; exact List.mem_map.mpr ⟨A, hA', rfl⟩)
    · exfalso
      subst hA'
      exact hnd.1 (by rw [← hid]; exact List.mem_map.mpr ⟨e, he', rfl⟩)
    · exact ih hnd.2 he' hA'

/-- A visible opaque entry covering any cell qualifies for the cut
lists. -/
theorem wf_qual_of_covers (st : Compositor) (hwf : st.WF) (e : MapEntry)
    (he : e ∈ st.map) (hv : e.widget.visible = true)
    (htr : e.widget.transparent = false) (c py : Int)
    (hcov : (clippedOf e).containsB c py = true) :
    cutQual st.size.region e = true := by
  rcases hwf.2.2.2.2 e he hv htr with ⟨_, hq⟩
  rcases (containsB_iff _ _ _).mp hcov with ⟨_, _, hy1, hy2⟩
  rcases hq with hq | hq
  · exact hq
  · omega

/-- The clipped extents of a qualifying entry are cuts of every row the
entry covers. -/
theorem extents_mem_cuts (st : Compositor) (hwf : st.WF) (e : MapEntry)
    (he : e ∈ st.map) (hq : cutQual st.size.region e = true) (n : Nat)
    (cutsY : List Int) (hcY : st.cuts[n]? = some cutsY)
    (hrc : rowCovers (clippedOf e) n) :
    (clippedOf e).x ∈ cutsY ∧ (clippedOf e).right ∈ cutsY := by
  have hn : n < st.computeCuts.length := by
    by_contra h'
    rw [cuts_of_cacheNone st hwf.1, List.getElem?_eq_none (by omega)] at hcY
    cases hcY
  rw [computeCuts_length] at hn
  rcases computeCuts_row st n hn with ⟨row, hrow, _, hmem⟩
  rw [cuts_of_cacheNone st hwf.1, hrow] at hcY
  injection hcY with hcY
  subst hcY
  exact ⟨(hmem _).mpr (Or.inr (Or.inr ⟨e, he, hq, hrc, Or.inl rfl⟩)),
    (hmem _).mpr (Or.inr (Or.inr ⟨e, he, hq, hrc, Or.inr rfl⟩))⟩

/-- A bucket whose cell is covered fills to exactly its cut gap. -/
theorem bucket_fill_step (st : Compositor) (hwf : st.WF) (n : Nat)
    (cutsY : List Int) (hcY : st.cuts[n]? = some cutsY) (k : Nat) (ck ck1 : Int)
    (hck : cutsY[k]? = some ck) (hck1 : cutsY[k + 1]? = some ck1)
    (B : MapEntry) (hB : B ∈ st.map) (hBv : B.widget.visible = true)
    (hBtr : B.widget.transparent = false)
    (hBcov : (clippedOf B).containsB ck (n : Int) = true) :
    ∃ Sk, firstWrite st.cuts st.getRenders n ck = some Sk ∧
      ((cellLen Sk : Int) = ck1 - ck) := by
  have hsorted := cuts_row_sorted st hwf.1 n cutsY hcY
  have hmemck : ck ∈ cutsY := by
    rcases List.getElem?_eq_some.mp hck with ⟨hlt, hv'⟩
    rw [← hv']
    exact List.getElem_mem hlt
  rcases bucket_exists st hwf n cutsY hcY ck hmemck B hB hBv hBtr hBcov with ⟨Sk, hSk⟩
  rcases bucket_spec st hwf n cutsY hcY ck hmemck Sk hSk with
    ⟨e, _, _, _, _, _, next, hnext, _, hlen, _⟩
  rw [nextCutIn_index cutsY hsorted k ck hck, hck1] at hnext
  have hnext' : next = ck1 := (Option.some.inj hnext).symm
  exact ⟨Sk, hSk, by omega⟩

/-- **C1** (corrected).  Depth respect of the occlusion fill: if a
visible, non-transparent map entry `A` covers cell `(x, y)`, every
*other* visible non-transparent entry covering `(x, y)` sorts strictly
below `A`, and every column up to `x` of row `y` is covered, then the
uncropped `render()` carries `A`'s own content at `(x, y)` (the original
claim, quantifying over any pair `A`, `B`, fails when a third widget is
frontmost — see the counterexample). -/
theorem C1_render_depth (st : Compositor) (hwf : st.WF)
    (A : MapEntry) (hA : A ∈ st.map) (hAv : A.widget.visible = true)
    (hAtr : A.widget.transparent = false)
    (x y : Int) (hAcov : (clippedOf A).containsB x y = true)
    (hfront : ∀ B ∈ st.map, B.widget.visible = true → B.widget.transparent = false →
      (clippedOf B).containsB x y = true → B.widget.wid ≠ A.widget.wid →
      ltLex B.order A.order = true)
    (hcover : ∀ x' : Nat, x' ≤ x.toNat →
      ∃ B ∈ st.map, B.widget.visible = true ∧ B.widget.transparent = false ∧
        (clippedOf B).containsB (x' : Int) y = true) :
    st.renderStyleAt x y = widgetContentAt A x y := by
  have hAq := wf_qual_of_covers st hwf A hA hAv hAtr x y hAcov
  have hAbounds := screen_contains_bounds st.size _ ((Bool.and_eq_true _ _).mp hAq).2
  rcases (containsB_iff _ _ _).mp hAcov with ⟨hax1, hax2, hay1, hay2⟩
  have hx0 : 0 ≤ x := by omega
  have hy0 : 0 ≤ y := by omega
  obtain ⟨n, rfl⟩ : ∃ n : Nat, y = (n : Int) := ⟨y.toNat, by omega⟩
  have hxW : x < st.size.width := by omega
  have hnH : n < st.size.height.toNat := by omega
  rcases cuts_row_full st hwf n hnH with ⟨cutsY, hcY, hsorted, hhead, hlastW, hbounds⟩
  rcases find_bucket cutsY hsorted 0 st.size.width x hhead hlastW (by omega) hxW with
    ⟨i, ci, ci1, hci, hci1, hcix, hxci1⟩
  have hrcA : rowCovers (clippedOf A) n := by
    unfold rowCovers
    constructor <;> omega
  rcases extents_mem_cuts st hwf A hA hAq n cutsY hcY hrcA with ⟨hAxm, hArm⟩
  have hAxci : (clippedOf A).x ≤ ci := by
    by_contra hgt
    exact no_between cutsY hsorted i ci ci1 hci hci1 _ hAxm ⟨by omega, by omega⟩
  have hAcovci : (clippedOf A).containsB ci (n : Int) = true := by
    rw [containsB_iff]
    exact ⟨by omega, by omega, by omega, by omega⟩
  have hmemci : ci ∈ cutsY := by
    rcases List.getElem?_eq_some.mp hci with ⟨hlt, hv'⟩
    rw [← hv']
    exact List.getElem_mem hlt
  rcases bucket_exists st hwf n cutsY hcY ci hmemci A hA hAv hAtr hAcovci with ⟨S, hS⟩
  rcases bucket_spec st hwf n cutsY hcY ci hmemci S hS with
    ⟨e, hemap, hev, hetr, hecov, hmin, next, hnext, hnle, hlenS, hcontent⟩
  rw [nextCutIn_index cutsY hsorted i ci hci, hci1] at hnext
  obtain rfl : ci1 = next := Option.some.inj hnext
  have heq2 := wf_qual_of_covers st hwf e hemap hev hetr ci (n : Int) hecov
  rcases (containsB_iff _ _ _).mp hecov with ⟨hex1, hex2, hey1, hey2⟩
  have hrcE : rowCovers (clippedOf e) n := by
    unfold rowCovers
    constructor <;> omega
  rcases extents_mem_cuts st hwf e hemap heq2 n cutsY hcY hrcE with ⟨_, herm⟩
  have hrt : (clippedOf e).right = (clippedOf e).x + (clippedOf e).width := rfl
  have heri : ci1 ≤ (clippedOf e).right := by
    by_contra hlt'
    exact no_between cutsY hsorted i ci ci1 hci hci1 _ herm ⟨by omega, by omega⟩
  have hecovxy : (clippedOf e).containsB x (n : Int) = true := by
    rw [containsB_iff]
    exact ⟨by omega, by omega, by omega, by omega⟩
  obtain rfl : e = A := by
    by_cases hid : e.widget.wid = A.widget.wid
    · exact nodup_entry_eq st.map hwf.2.2.2.1 e A hemap hA hid
    · exfalso
      have h1 := hfront e hemap hev hetr hecovxy hid
      have h2 := hmin A hA hAv hAtr hAcovci
      rw [h2] at h1
      cases h1
  rcases render_none_spec st hwf with ⟨chops, hchops, hrender, hrep⟩
  have hrowc := hrep.2 n cutsY hcY
  have hlsrow : (assembleChops chops)[n]? =
      some ((cutsY.filterMap
        (fun c => firstWrite st.cuts st.getRenders n c)).flatten) := by
    unfold assembleChops
    rw [List.getElem?_map, hrowc]
    simp only [Option.map_some']
    congr 1
    rw [List.filterMap_map]
    rfl
  have hwalk := rowWalk (fun c => firstWrite st.cuts st.getRenders n c) cutsY hsorted
    i ci S hci hS
    (fun k hk => by
      have hki : k + 1 < cutsY.length := by
        rcases List.getElem?_eq_some.mp hci1 with ⟨hlt2, _⟩
        omega
      have hck : cutsY[k]? = some cutsY[k] := List.getElem?_eq_getElem (by omega)
      have hck1 : cutsY[k + 1]? = some cutsY[k + 1] := List.getElem?_eq_getElem hki
      have hcklt : cutsY[k] < ci :=
        pairwise_lt_getElem cutsY hsorted k i (by omega) _ _ hck hci
      have hb := hbounds _ (List.getElem_mem (by omega : k < cutsY.length))
      rcases hcover (cutsY[k]).toNat (by omega) with ⟨B, hB, hBv, hBtr, hBcov⟩
      rw [Int.toNat_of_nonneg hb.1] at hBcov
      rcases bucket_fill_step st hwf n cutsY hcY k cutsY[k] cutsY[k + 1] hck hck1
          B hB hBv hBtr hBcov with ⟨Sk, hSk, hlk⟩
      exact ⟨cutsY[k], cutsY[k + 1], Sk, hck, hck1, hSk, hlk⟩)
    x 0 hhead hcix (by omega)
  unfold Compositor.renderStyleAt
  rw [hrender, Option.some_bind]
  rw [show ((n : Int)).toNat = n from by omega]
  rw [hlsrow, Option.some_bind]
  rw [show x.toNat = (x - 0).toNat from by omega]
  rw [hwalk]
  have hj := hcontent (x - ci).toNat (by omega)
  rw [hj]
  congr 1
  omega

/-- `render` under a crop fully inside the screen: the chop rows of the
crop's y-range are assembled, then `width_view` trims each line unless
the crop spans the full width. -/
theorem render_crop_spec (st : Compositor) (hwf : st.WF) (cr : Region)
    (h1 : 0 ≤ cr.x) (h2 : 0 ≤ cr.y) (h3 : 0 ≤ cr.width) (h4 : 0 ≤ cr.height)
    (h5 : cr.x + cr.width ≤ st.size.width) (h6 : cr.y + cr.height ≤ st.size.height) :
    ∃ chops, st.renderChops = some chops ∧
      ChopsRep st.cuts chops (fun n c => firstWrite st.cuts st.getRenders n c) ∧
      st.render (some cr) = some (
        if cr.x = 0 ∧ cr.x + cr.width = st.size.width
        then assembleChops ((chops.drop cr.y.toNat).take cr.height.toNat)
        else (assembleChops ((chops.drop cr.y.toNat).take cr.height.toNat)).map
          (widthView cr.x (cr.x + cr.width))) := by
  obtain ⟨cx, cy, cw, ch⟩ := cr
  simp only at h1 h2 h3 h4 h5 h6 ⊢
  rcases renderChops_spec st (wf_good st hwf) with ⟨chops, hchops, hrep⟩
  refine ⟨chops, hchops, hrep, ?_⟩
  unfold Compositor.render
  rw [hchops]
  have hinter : (⟨cx, cy, cw, ch⟩ : Region).intersection
      ⟨0, 0, st.size.width, st.size.height⟩ = ⟨cx, cy, cw, ch⟩ := by
    simp only [Region.intersection, Region.right, Region.bottom]
    rw [Region.mk.injEq]
    refine ⟨?_, ?_, ?_, ?_⟩ <;> simp <;> omega
  simp only [Option.isSome_some]
  rw [hinter]
  have hxr : (⟨cx, cy, cw, ch⟩ : Region).right = cx + cw := rfl
  have hyb : (⟨cx, cy, cw, ch⟩ : Region).bottom = cy + ch := rfl
  have hfx : (⟨cx, cy, cw, ch⟩ : Region).x = cx := rfl
  have hfy : (⟨cx, cy, cw, ch⟩ : Region).y = cy := rfl
  rw [hxr, hyb, hfx, hfy]
  have hdrop : ((cy + ch - cy).toNat) = ch.toNat := by omega
  rw [hdrop]
  by_cases hcase : cx = 0 ∧ cx + cw = st.size.width
  · rw [if_pos hcase]
    rw [if_neg (fun hcon => hcon.2 hcase)]
  · rw [if_neg hcase]
    rw [if_pos ⟨trivial, hcase⟩]

/-- `width_view` of a line at least `b` cells long keeps the cells
`[a, b)`. -/
theorem cellLen_widthView (line : Line) (a b : Int) (h0 : 0 ≤ a) (hab : a ≤ b)
    (hb : b ≤ (cellLen line : Int)) :
    (cellLen (widthView a b line) : Int) = b - a := by
  unfold widthView
  by_cases hemp : line.isEmpty
  · rw [if_pos hemp]
    have he : line = [] := List.isEmpty_iff.mp hemp
    rw [he] at hb ⊢
    simp only [cellLen_nil] at hb ⊢
    omega
  · rw [if_neg hemp]
    simp only [divideSegs_pair]
    rw [if_pos (by simp)]
    simp only [getD_pair]
    rw [cellLen_segSlice]
    omega

/-- Any line assembled from chop rows of a fully covered screen has cell
length exactly the screen width. -/
theorem cropRows_cellLen (st : Compositor) (hwf : st.WF)
    (hcover : ∀ x' : Nat, x' < st.size.width.toNat → ∀ y' : Nat,
      y' < st.size.height.toNat →
      ∃ B ∈ st.map, B.widget.visible = true ∧ B.widget.transparent = false ∧
        (clippedOf B).containsB (x' : Int) (y' : Int) = true)
    (chops : Chops)
    (hrep : ChopsRep st.cuts chops (fun n c => firstWrite st.cuts st.getRenders n c))
    (d t : Nat) (line : Line)
    (hline : line ∈ assembleChops ((chops.drop d).take t)) :
    (cellLen line : Int) = st.size.width := by
  unfold assembleChops at hline
  rcases List.mem_map.mp hline with ⟨rowc, hrowc, hline'⟩
  rcases List.mem_iff_getElem?.mp hrowc with ⟨i, hi⟩
  have hit : (chops.drop d)[i]? = some rowc := by
    rw [List.getElem?_take] at hi
    by_cases h : i < t
    · rw [if_pos h] at hi
      exact hi
    · rw [if_neg h] at hi
      cases hi
  have hci : chops[d + i]? = some rowc := by
    rw [← List.getElem?_drop]
    exact hit
  have hnH : d + i < st.size.height.toNat := by
    rcases List.getElem?_eq_some.mp hci with ⟨hlt, _⟩
    have hlenc : chops.length = st.size.height.toNat := by
      rw [hrep.1, cuts_of_cacheNone st hwf.1, computeCuts_length]
    omega
  rcases row_cellLen st hwf (d + i) hnH (fun x' hx' => hcover x' hx' (d + i) hnH)
      chops hrep with ⟨rowc', hrowc', hlen⟩
  rw [hci] at hrowc'
  obtain rfl : rowc = rowc' := Option.some.inj hrowc'
  rw [← hline']
  exact hlen

/-- **C6** (corrected).  When every on-screen cell is covered by some
visible opaque widget, every line of `render` has total cell length
exactly the rendered width — the screen width without a crop, the crop's
width for a crop inside the screen.  (Without the coverage qualifier the
claim fails: an uncovered row assembles to an empty line — see the
counterexample.) -/
theorem C6_render_line_width (st : Compositor) (hwf : st.WF)
    (hcover : ∀ x' : Nat, x' < st.size.width.toNat → ∀ y' : Nat,
      y' < st.size.height.toNat →
      ∃ B ∈ st.map, B.widget.visible = true ∧ B.widget.transparent = false ∧
        (clippedOf B).containsB (x' : Int) (y' : Int) = true) :
    (∃ ls, st.render none = some ls ∧
      ∀ line ∈ ls, (cellLen line : Int) = st.size.width) ∧
    ∀ cr : Region, 0 ≤ cr.x → 0 ≤ cr.y → 0 ≤ cr.width → 0 ≤ cr.height →
      cr.x + cr.width ≤ st.size.width → cr.y + cr.height ≤ st.size.height →
      ∃ ls, st.render (some cr) = some ls ∧
        ∀ line ∈ ls, (cellLen line : Int) = cr.width := by
  constructor
  · rcases render_none_spec st hwf with ⟨chops, hchops, hrender, hrep⟩
    refine ⟨_, hrender, ?_⟩
    intro line hline
    have hlenc : chops.length = st.size.height.toNat := by
      rw [hrep.1, cuts_of_cacheNone st hwf.1, computeCuts_length]
    have hline2 : line ∈ assembleChops ((chops.drop 0).take st.size.height.toNat) := by
      rw [List.drop_zero, ← hlenc, List.take_length]
      exact hline
    exact cropRows_cellLen st hwf hcover chops hrep 0 st.size.height.toNat line hline2
  · intro cr hc1 hc2 hc3 hc4 hc5 hc6
    rcases render_crop_spec st hwf cr hc1 hc2 hc3 hc4 hc5 hc6 with
      ⟨chops, hchops, hrep, hrender⟩
    refine ⟨_, hrender, ?_⟩
    intro line hline
    by_cases hcase : cr.x = 0 ∧ cr.x + cr.width = st.size.width
    · rw [if_pos hcase] at hline
      have := cropRows_cellLen st hwf hcover chops hrep cr.y.toNat cr.height.toNat
        line hline
      omega
    · rw [if_neg hcase] at hline
      rcases List.mem_map.mp hline with ⟨line0, hline0, hwv⟩
      have hl0 := cropRows_cellLen st hwf hcover chops hrep cr.y.toNat cr.height.toNat
        line0 hline0
      rw [← hwv]
      rw [cellLen_widthView line0 cr.x (cr.x + cr.width) hc1 (by omega) (by omega)]
      omega

/-- Membership after the keyed dict insertion: an old entry or the new
one. -/
theorem mem_dictInsert (m : List MapEntry) (ent e : MapEntry)
    (he : e ∈ dictInsert m ent) : e ∈ m ∨ e = ent := by
  unfold dictInsert at he
  split_ifs at he
  · rcases List.mem_map.mp he with ⟨u, hu, hue⟩
    by_cases h : u.widget.wid = ent.widget.wid
    · rw [if_pos h] at hue
      exact Or.inr hue.symm
    · rw [if_neg h] at hue
      exact Or.inl (hue ▸ hu)
  · rcases List.mem_append.mp he with h | h
    · exact Or.inl h
    · exact Or.inr (List.mem_singleton.mp h)

/-- The order keys the arrange pass records, by strong induction on the
widget tree: an entry added below `add_widget w region order clip` either
is `w`'s own record (carrying the passed `order`) or carries the entry's
own widget `z` tuple with a single placement component appended — the
code appends `z` to `sub_widget.z`, not to the parent's accumulated
order. -/
theorem arrange_orders_aux : ∀ N : Nat,
    (∀ w : Widget, sizeOf w ≤ N → ∀ (region : Region) (order : List Int) (clip : Region)
      (st st' : ArrSt), addWidget w region order clip st = .ok st' →
      ∀ e ∈ st'.map, e ∈ st.map ∨ (e.widget = w.attrs ∧ e.order = order) ∨
        ∃ z : Int, e.order = e.widget.z ++ [z]) ∧
    (∀ ps : List Placement, sizeOf ps ≤ N → ∀ (origin scroll : Offset)
      (subClip total : Region) (st : ArrSt) (res : Region × ArrSt),
      addPlacements ps origin scroll subClip total st = .ok res →
      ∀ e ∈ res.2.map, e ∈ st.map ∨ ∃ z : Int, e.order = e.widget.z ++ [z]) := by
  intro N
  induction N using Nat.strong_induction_on with
  | _ N ih =>
    constructor
    · intro w hw region order clip st st' heq e he
      cases w with
      | mk attrs lay =>
        cases lay with
        | none =>
            simp only [addWidget] at heq
            injection heq with heq
            rw [← heq] at he
            rcases mem_dictInsert _ _ _ he with h | h
            · exact Or.inl h
            · refine Or.inr (Or.inl ?_)
              rw [h]
              exact ⟨rfl, rfl⟩
        | some lc =>
            cases lc with
            | mk lf lpl lex =>
              simp only [addWidget, LayoutCap.fails, LayoutCap.placements,
                LayoutCap.extra] at heq
              by_cases hf : lf = true
              · rw [if_pos hf] at heq
                cases heq
              · rw [if_neg hf] at heq
                have hsz : sizeOf (sortByKey Placement.order lpl) < N := by
                  rw [sortByKey_sizeOf]
                  simp only [Widget.mk.sizeOf_spec, Option.some.sizeOf_spec,
                    LayoutCap.mk.sizeOf_spec] at hw
                  omega
                cases hap : addPlacements (sortByKey Placement.order lpl)
                    region.origin attrs.scroll (clip.intersection region)
                    region.size.region (ArrSt.mk st.map
                      (setAddAll (setAdd st.widgets attrs.wid) lex)) with
                | error err =>
                    rw [hap] at heq
                    exact absurd heq (by simp)
                | ok val =>
                    rw [hap] at heq
                    obtain ⟨total, stp⟩ := val
                    have heq2 : Except.ok (ArrSt.mk
                        (dictInsert stp.map ⟨attrs, region.translate attrs.off, order,
                          clip, total.size⟩) stp.widgets) = Except.ok st' := heq
                    injection heq2 with heq2
                    rw [← heq2] at he
                    rcases mem_dictInsert _ _ _ he with h | h
                    · rcases (ih _ hsz).2 (sortByKey Placement.order lpl) (le_refl _)
                        region.origin attrs.scroll (clip.intersection region)
                        region.size.region _ _ hap e h with h' | h'
                      · exact Or.inl h'
                      · exact Or.inr (Or.inr h')
                    · refine Or.inr (Or.inl ?_)
                      rw [h]
                      exact ⟨rfl, rfl⟩
    · intro ps hps origin scroll subClip total st res heq e he
      cases ps with
      | nil =>
          simp only [addPlacements] at heq
          injection heq with heq
          rw [← heq] at he
          exact Or.inl he
      | cons p rest =>
          cases p with
          | mk pregion pwidget porder =>
            cases pwidget with
            | none =>
                simp only [addPlacements] at heq
                have hszr : sizeOf rest < N := by
                  simp only [List.cons.sizeOf_spec] at hps
                  omega
                exact (ih _ hszr).2 rest (le_refl _) origin scroll subClip
                  (total.union pregion) st res heq e he
            | some sub =>
                simp only [addPlacements] at heq
                have hszr : sizeOf rest < N := by
                  simp only [List.cons.sizeOf_spec] at hps
                  omega
                have hszs : sizeOf sub < N := by
                  simp only [List.cons.sizeOf_spec, Placement.mk.sizeOf_spec,
                    Option.some.sizeOf_spec] at hps
                  omega
                cases haw : addWidget sub (pregion.translate (origin.sub scroll))
                    (sub.attrs.z ++ [porder]) subClip st with
                | error err =>
                    rw [haw] at heq
                    exact absurd heq (by simp)
                | ok stp =>
                    rw [haw] at heq
                    have heq2 : addPlacements rest origin scroll subClip
                        (total.union pregion) stp = .ok res := heq
                    rcases (ih _ hszr).2 rest (le_refl _) origin scroll subClip
                        (total.union pregion) stp res heq2 e he with h | h
                    · rcases (ih _ hszs).1 sub (le_refl _)
                          (pregion.translate (origin.sub scroll))
                          (sub.attrs.z ++ [porder]) subClip st stp haw e h with
                        h' | h' | h'
                      · exact Or.inl h'
                      · refine Or.inr ⟨porder, ?_⟩
                        rw [h'.2, h'.1]
                      · exact Or.inr h'
                    · exact Or.inr h

/-- **C2** (corrected).  The order key of every widget the arrange pass
records, except the root's own entry, is the entry's *own* widget `z`
tuple with the placement's z component appended — `add_widget` passes
`sub_widget.z + (z,)`, not `order + (z,)`, so a child's order does not
extend its parent's accumulated order tuple (see the counterexample). -/
theorem C2_child_order (root : Widget) (arr : ArrSt)
    (hok : arrangeRoot root = .ok arr) :
    ∀ e ∈ arr.map, (e.widget = root.attrs ∧ e.order = ([] : List Int)) ∨
      ∃ z : Int, e.order = e.widget.z ++ [z] := by
  unfold arrangeRoot at hok
  intro e he
  rcases (arrange_orders_aux (sizeOf root)).1 root (le_refl _) root.attrs.size.region []
      root.attrs.size.region (ArrSt.mk [] []) arr hok e he with h | h | h
  · cases h
  · exact Or.inl h
  · exact Or.inr h

/-- **C3** (corrected).  The cut-list invariant: with a cold cache, every
screen row's cut list is strictly increasing, begins with 0, ends with
the screen width, and contains both extents of every widget's clipped
region that is truthy, lies fully within the screen, and covers the row
(the original claim omits the truthy/on-screen qualifier — see the
counterexample). -/
theorem C3_cuts_invariant (st : Compositor) (hc : st.cutsCache = none)
    (hw : 0 ≤ st.size.width) (y : Nat) (hy : y < st.size.height.toNat) :
    ∃ row, st.cuts[y]? = some row ∧ row.Pairwise (· < ·) ∧
      row.head? = some 0 ∧ row.getLast? = some st.size.width ∧
      ∀ e ∈ st.map, cutQual st.size.region e = true → rowCovers (clippedOf e) y →
        (clippedOf e).x ∈ row ∧ (clippedOf e).right ∈ row := by
  rw [cuts_of_cacheNone st hc]
  rcases computeCuts_row st y hy with ⟨row, hrow, hp, hmem⟩
  refine ⟨row, hrow, hp, computeCuts_row_head st y hy hw row hrow,
    computeCuts_row_last st y hy hw row hrow, ?_⟩
  intro e he hq hrc
  exact ⟨(hmem _).mpr (Or.inr (Or.inr ⟨e, he, hq, hrc, Or.inl rfl⟩)),
    (hmem _).mpr (Or.inr (Or.inr ⟨e, he, hq, hrc, Or.inr rfl⟩))⟩

/-- **C4** (confirmed).  A successful reflow reports
`shown = new - old`, `hidden = old - new`, and `resized` = the widgets
of both whose currently reported size differs from the newly arranged
region's size; hence shown and hidden are disjoint, shown lies in the
new keys and hidden in the old keys. -/
theorem C4_reflow_sets (st : Compositor) (parent : Widget) (size : Size)
    (st' : Compositor) (r : ReflowResult)
    (hok : st.reflow parent size = (st', .ok r)) :
    (∀ k, k ∈ r.shown ↔ k ∈ mapKeys st'.map ∧ k ∉ mapKeys st.map) ∧
    (∀ k, k ∈ r.hidden ↔ k ∈ mapKeys st.map ∧ k ∉ mapKeys st'.map) ∧
    (∀ k, k ∈ r.resized ↔ ∃ e ∈ st'.map, e.widget.wid = k ∧
      k ∈ mapKeys st.map ∧ e.widget.size ≠ e.region.size) ∧
    (∀ k, k ∈ r.shown → k ∉ r.hidden) ∧
    (∀ k, k ∈ r.shown → k ∈ mapKeys st'.map) ∧
    (∀ k, k ∈ r.hidden → k ∈ mapKeys st.map) := by
  unfold Compositor.reflow at hok
  cases harr : arrangeRoot parent with
  | error err =>
      rw [harr] at hok
      have h2 := congrArg Prod.snd hok
      simp at h2
  | ok arr =>
      rw [harr] at hok
      have h1 := congrArg Prod.fst hok
      have h2 := congrArg Prod.snd hok
      simp only at h1 h2
      injection h2 with h2
      have hmap : st'.map = arr.map := by rw [← h1]
      rw [← h2]
      simp only [hmap]
      refine ⟨?_, ?_, ?_, ?_, ?_, ?_⟩
      · intro k
        rw [List.mem_filter]
        simp
      · intro k
        rw [List.mem_filter]
        simp
      · intro k
        constructor
        · intro hk
          rcases List.mem_map.mp hk with ⟨e, he, hke⟩
          rw [List.mem_filter] at he
          rcases he with ⟨hemem, hcond⟩
          simp only [Bool.and_eq_true, decide_eq_true_eq] at hcond
          exact ⟨e, hemem, hke, by rw [← hke]; exact hcond.1, hcond.2⟩
        · rintro ⟨e, hemem, hke, hold, hsz⟩
          refine List.mem_map.mpr ⟨e, ?_, hke⟩
          rw [List.mem_filter]
          refine ⟨hemem, ?_⟩
          simp only [Bool.and_eq_true, decide_eq_true_eq]
          exact ⟨by rw [hke]; exact hold, hsz⟩
      · intro k hk
        rw [List.mem_filter] at hk
        intro hcon
        rw [List.mem_filter] at hcon
        simp only [decide_eq_true_eq] at hk hcon
        exact hk.2 hcon.1
      · intro k hk
        rw [List.mem_filter] at hk
        exact hk.1
      · intro k hk
        rw [List.mem_filter] at hk
        exact hk.1

/-- If a region is falsy so is its intersection with any clip. -/
theorem inter_empty_of_empty (region clip : Region)
    (h : region.nonEmptyB = false) :
    (region.intersection clip).nonEmptyB = false := by
  simp only [Region.nonEmptyB, Region.intersection_width, Region.intersection_height,
    Region.right, Region.bottom, Bool.and_eq_false_iff, decide_eq_false_iff_not,
    ne_eq, not_not] at h ⊢
  omega

/-- **C5** (confirmed).  `update_widget` returns `None` exactly when the
widget is missing from `regions` or its region clipped to its clip is
empty; otherwise the patch is positioned at `region ∩ clip` and carries
the full render cropped to that rectangle. -/
theorem C5_update_widget (st : Compositor) (wid : Nat) :
    (st.regions.find? (fun t => t.1 = wid) = none → st.updateWidget wid = none) ∧
    ∀ w' region clip, st.regions.find? (fun t => t.1 = wid) = some (w', region, clip) →
      ((region.intersection clip).nonEmptyB = false → st.updateWidget wid = none) ∧
      ((region.intersection clip).nonEmptyB = true →
        st.updateWidget wid = some ⟨st.render (some (region.intersection clip)),
          region.intersection clip⟩) := by
  constructor
  · intro hnone
    unfold Compositor.updateWidget
    rw [hnone]
  · intro w' region clip hfound
    constructor
    · intro hempty
      unfold Compositor.updateWidget
      simp only [hfound]
      by_cases hreg : region.nonEmptyB = true
      · rw [if_neg (by rw [hreg]; simp)]
        rw [if_pos (by rw [hempty]; simp)]
      · rw [if_pos (by simpa using hreg)]
    · intro hfull
      unfold Compositor.updateWidget
      simp only [hfound]
      have hreg : region.nonEmptyB = true := by
        by_contra hcon
        rw [inter_empty_of_empty region clip (by simpa using hcon)] at hfull
        cases hfull
      rw [if_neg (by rw [hreg]; simp), if_neg (by rw [hfull]; simp)]

/-- **C8** (confirmed).  Reflow is atomic with respect to the
arrangement: when the arrange pass raises, `map`, `regions` and
`widgets` keep their previous values (only the cut cache, root and size
mutate, which happen before the arrange pass). -/
theorem C8_reflow_atomic (st : Compositor) (parent : Widget) (size : Size)
    (herr : arrangeRoot parent = .error ()) :
    (st.reflow parent size).1.map = st.map ∧
    (st.reflow parent size).1.regions = st.regions ∧
    (st.reflow parent size).1.widgets = st.widgets ∧
    (st.reflow parent size).2 = .error () := by
  unfold Compositor.reflow
  simp [herr]

/-- **C9** (confirmed).  `require_update` empties `map` and `widgets`
besides setting the flag and dropping the cut cache; consequently every
hit test misses until the next reflow, and a following successful reflow
reports no hidden widgets and shows every widget of the new
arrangement. -/
theorem C9_require_update (st : Compositor) :
    ((st.requireUpdate).map = [] ∧ (st.requireUpdate).widgets = [] ∧
      (st.requireUpdate).cutsCache = none ∧
      (st.requireUpdate).requireUpdateFlag = true ∧
      (st.requireUpdate).root = st.root ∧ (st.requireUpdate).size = st.size) ∧
    (∀ x y : Int, (st.requireUpdate).getWidgetAt x y = none) ∧
    (∀ (parent : Widget) (size : Size) (st' : Compositor) (r : ReflowResult),
      (st.requireUpdate).reflow parent size = (st', .ok r) →
      r.hidden = [] ∧ ∀ k, k ∈ r.shown ↔ k ∈ mapKeys st'.map) := by
  refine ⟨⟨rfl, rfl, rfl, rfl, rfl, rfl⟩, fun x y => rfl, ?_⟩
  intro parent size st' r hok
  unfold Compositor.reflow at hok
  cases harr : arrangeRoot parent with
  | error err =>
      rw [harr] at hok
      have h2 := congrArg Prod.snd hok
      simp at h2
  | ok arr =>
      rw [harr] at hok
      have h1 := congrArg Prod.fst hok
      have h2 := congrArg Prod.snd hok
      simp only at h1 h2
      injection h2 with h2
      rw [← h2]
      refine ⟨rfl, ?_⟩
      intro k
      have hmap : st'.map = arr.map := by rw [← h1]
      rw [hmap]
      simp only [List.mem_filter]
      constructor
      · intro hk
        exact hk.1
      · intro hk
        refine ⟨hk, ?_⟩
        simp [mapKeys, Compositor.requireUpdate]

/-! ## Concrete states for the counterexamples, witnesses and bug
exhibits -/

/-- A widget whose cached lines (one) fall short of its region height
(two): the shape that trips `get_style_at`'s boundary check. -/
def wC7 : WAttrs := ⟨1, ⟨1, 2⟩, [1], true, false, ⟨0, 0⟩, ⟨0, 0⟩, [[⟨5, 1⟩]]⟩

def eC7 : MapEntry := ⟨wC7, ⟨0, 0, 1, 2⟩, [1], ⟨0, 0, 1, 2⟩, ⟨1, 2⟩⟩

def stC7 : Compositor :=
  ⟨[eC7], [1], none, ⟨1, 2⟩, [(1, ⟨0, 0, 1, 2⟩, ⟨0, 0, 1, 2⟩)], none, false⟩

/-- **C7** (code bug).  `get_style_at` guards `y > len(lines)` instead of
`y >= len(lines)`: at widget-local row `y = len(lines)` the guard passes
and `lines[y]` raises an uncaught `IndexError` (`none`), though the hit
test succeeded and the widget is in `regions`; the neighbouring cell
shows the ordinary style path. -/
theorem C7_style_index_error :
    stC7.getWidgetAt 0 1 = some (wC7, ⟨0, 0, 1, 2⟩) ∧
    stC7.regions.any (fun t => t.1 = wC7.wid) = true ∧
    stC7.getStyleAt 0 1 = none ∧ stC7.getStyleAt 0 0 = some 5 := by decide

def wVis10 : WAttrs := ⟨1, ⟨1, 1⟩, [1], true, false, ⟨0, 0⟩, ⟨0, 0⟩, [[⟨7, 1⟩]]⟩

def wInv10 : WAttrs := ⟨2, ⟨1, 1⟩, [2], false, false, ⟨0, 0⟩, ⟨0, 0⟩, [[⟨9, 1⟩]]⟩

def eVis10 : MapEntry := ⟨wVis10, ⟨0, 0, 1, 1⟩, [1], ⟨0, 0, 1, 1⟩, ⟨1, 1⟩⟩

def eInv10 : MapEntry := ⟨wInv10, ⟨0, 0, 1, 1⟩, [2], ⟨0, 0, 1, 1⟩, ⟨1, 1⟩⟩

def stC10 : Compositor := ⟨[eVis10, eInv10], [1, 2], none, ⟨1, 1⟩,
  [(1, ⟨0, 0, 1, 1⟩, ⟨0, 0, 1, 1⟩), (2, ⟨0, 0, 1, 1⟩, ⟨0, 0, 1, 1⟩)], none, false⟩

/-- **C10** (confirmed).  Hit testing ignores visibility: with an
invisible widget stacked above a visible one, `get_widget_at` returns
the invisible widget while the render shows the visible widget's
content at the same cell. -/
theorem C10_hit_invisible :
    stC10.getWidgetAt 0 0 = some (wInv10, ⟨0, 0, 1, 1⟩) ∧ wInv10.visible = false ∧
    eVis10 ∈ stC10.map ∧ eVis10.widget.visible = true ∧
    stC10.renderStyleAt 0 0 = some 7 ∧ widgetContentAt eVis10 0 0 = some 7 ∧
    wVis10.wid ≠ wInv10.wid := by decide

def wA1 : WAttrs := ⟨1, ⟨1, 1⟩, [2], true, false, ⟨0, 0⟩, ⟨0, 0⟩, [[⟨7, 1⟩]]⟩

def wB1 : WAttrs := ⟨2, ⟨1, 1⟩, [1], true, false, ⟨0, 0⟩, ⟨0, 0⟩, [[⟨5, 1⟩]]⟩

def wF1 : WAttrs := ⟨3, ⟨1, 1⟩, [3], true, false, ⟨0, 0⟩, ⟨0, 0⟩, [[⟨9, 1⟩]]⟩

def eA1 : MapEntry := ⟨wA1, ⟨0, 0, 1, 1⟩, [2], ⟨0, 0, 1, 1⟩, ⟨1, 1⟩⟩

def eB1 : MapEntry := ⟨wB1, ⟨0, 0, 1, 1⟩, [1], ⟨0, 0, 1, 1⟩, ⟨1, 1⟩⟩

def eF1 : MapEntry := ⟨wF1, ⟨0, 0, 1, 1⟩, [3], ⟨0, 0, 1, 1⟩, ⟨1, 1⟩⟩

def stC1x : Compositor := ⟨[eA1, eB1, eF1], [1, 2, 3], none, ⟨1, 1⟩,
  [(1, ⟨0, 0, 1, 1⟩, ⟨0, 0, 1, 1⟩), (2, ⟨0, 0, 1, 1⟩, ⟨0, 0, 1, 1⟩),
    (3, ⟨0, 0, 1, 1⟩, ⟨0, 0, 1, 1⟩)], none, false⟩

/-- The three-widget refutation of the unqualified C1: `A` sorts above
`B` and both cover the cell, yet the render shows a third, frontmost
widget's content, not `A`'s. -/
theorem C1_counterexample :
    stC1x.WF ∧ eA1 ∈ stC1x.map ∧ eB1 ∈ stC1x.map ∧
    eA1.widget.visible = true ∧ eA1.widget.transparent = false ∧
    eB1.widget.visible = true ∧ eB1.widget.transparent = false ∧
    ltLex eB1.order eA1.order = true ∧
    (clippedOf eA1).containsB 0 0 = true ∧ (clippedOf eB1).containsB 0 0 = true ∧
    stC1x.renderStyleAt 0 0 = some 9 ∧ widgetContentAt eA1 0 0 = some 7 ∧
    stC1x.renderStyleAt 0 0 ≠ widgetContentAt eA1 0 0 := by decide

def wAw : WAttrs := ⟨1, ⟨1, 1⟩, [1], true, false, ⟨0, 0⟩, ⟨0, 0⟩, [[⟨4, 1⟩]]⟩

def eAw : MapEntry := ⟨wAw, ⟨0, 0, 1, 1⟩, [1], ⟨0, 0, 1, 1⟩, ⟨1, 1⟩⟩

def stW1 : Compositor :=
  ⟨[eAw], [1], none, ⟨1, 1⟩, [(1, ⟨0, 0, 1, 1⟩, ⟨0, 0, 1, 1⟩)], none, false⟩

/-- Witness for C1 at a concrete frontmost widget. -/
theorem C1_witness : stW1.WF ∧ stW1.renderStyleAt 0 0 = widgetContentAt eAw 0 0 :=
  ⟨by decide, C1_render_depth stW1 (by decide) eAw (by decide) (by decide) (by decide)
    0 0 (by decide) (by decide) (by decide)⟩

def wC3 : WAttrs := ⟨1, ⟨0, 1⟩, [1], true, false, ⟨0, 0⟩, ⟨0, 0⟩, []⟩

def eC3 : MapEntry := ⟨wC3, ⟨1, 0, 0, 1⟩, [1], ⟨0, 0, 4, 1⟩, ⟨0, 1⟩⟩

def stC3x : Compositor :=
  ⟨[eC3], [1], none, ⟨4, 1⟩, [(1, ⟨1, 0, 0, 1⟩, ⟨0, 0, 4, 1⟩)], none, false⟩

/-- The refutation of the unqualified C3: a widget whose clipped region
is empty (falsy) covers row 0, yet its left extent 1 is not a cut of
that row. -/
theorem C3_counterexample :
    stC3x.cutsCache = none ∧ eC3 ∈ stC3x.map ∧
    rowCovers (clippedOf eC3) 0 ∧ (clippedOf eC3).x = 1 ∧
    stC3x.cuts[0]? = some [0, 4] ∧ (1 : Int) ∉ ([0, 4] : List Int) := by decide

def wW3 : WAttrs := ⟨1, ⟨2, 1⟩, [1], true, false, ⟨0, 0⟩, ⟨0, 0⟩, [[⟨6, 2⟩]]⟩

def eW3 : MapEntry := ⟨wW3, ⟨1, 0, 2, 1⟩, [1], ⟨0, 0, 4, 1⟩, ⟨2, 1⟩⟩

def stW3 : Compositor :=
  ⟨[eW3], [1], none, ⟨4, 1⟩, [(1, ⟨1, 0, 2, 1⟩, ⟨0, 0, 4, 1⟩)], none, false⟩

/-- Witness for C3 on a 4-wide screen with one widget spanning
columns 1-3. -/
theorem C3_witness :
    ∃ row, stW3.cuts[0]? = some row ∧ row.Pairwise (· < ·) ∧
      row.head? = some 0 ∧ row.getLast? = some stW3.size.width ∧
      ∀ e ∈ stW3.map, cutQual stW3.size.region e = true → rowCovers (clippedOf e) 0 →
        (clippedOf e).x ∈ row ∧ (clippedOf e).right ∈ row :=
  C3_cuts_invariant stW3 (by decide) (by decide) 0 (by decide)

def stC6x : Compositor := ⟨[], [], none, ⟨3, 2⟩, [], none, false⟩

/-- The refutation of the unqualified C6: a well-formed empty
arrangement renders rows of length 0, not the screen width. -/
theorem C6_counterexample :
    stC6x.WF ∧ stC6x.render none = some [[], []] ∧
    ((cellLen ([] : Line) : Int) ≠ stC6x.size.width) := by decide

def wW6 : WAttrs := ⟨1, ⟨2, 1⟩, [1], true, false, ⟨0, 0⟩, ⟨0, 0⟩, [[⟨8, 2⟩]]⟩

def eW6 : MapEntry := ⟨wW6, ⟨0, 0, 2, 1⟩, [1], ⟨0, 0, 2, 1⟩, ⟨2, 1⟩⟩

def stW6 : Compositor :=
  ⟨[eW6], [1], none, ⟨2, 1⟩, [(1, ⟨0, 0, 2, 1⟩, ⟨0, 0, 2, 1⟩)], none, false⟩

/-- Witness for C6 on a fully covered screen. -/
theorem C6_witness :
    stW6.WF ∧ ∃ ls, stW6.render none = some ls ∧
      ∀ line ∈ ls, (cellLen line : Int) = stW6.size.width :=
  ⟨by decide, (C6_render_line_width stW6 (by decide) (by decide)).1⟩

def leafA2 : WAttrs := ⟨1, ⟨2, 1⟩, [3], true, false, ⟨0, 0⟩, ⟨0, 0⟩, [[⟨7, 2⟩]]⟩

def rootA2 : WAttrs := ⟨0, ⟨4, 2⟩, [], true, false, ⟨0, 0⟩, ⟨0, 0⟩,
  [[⟨1, 4⟩], [⟨1, 4⟩]]⟩

/-- A leaf widget with its own `z` tuple `(3,)`. -/
def leafW2 : Widget := .mk leafA2 none

/-- A root whose layout places the leaf at `z = 5`. -/
def rootW2 : Widget := .mk rootA2 (some (.mk false [.mk ⟨0, 0, 2, 1⟩ (some leafW2) 5] []))

/-- What arranging `rootW2` produces. -/
def arrW2 : ArrSt := ⟨[⟨leafA2, ⟨0, 0, 2, 1⟩, [3, 5], ⟨0, 0, 4, 2⟩, ⟨2, 1⟩⟩,
  ⟨rootA2, ⟨0, 0, 4, 2⟩, [], ⟨0, 0, 4, 2⟩, ⟨4, 2⟩⟩], [0, 1]⟩

/-- Witness for C2 on the concrete two-widget tree. -/
theorem C2_witness :
    arrangeRoot rootW2 = .ok arrW2 ∧
    ∀ e ∈ arrW2.map, (e.widget = rootW2.attrs ∧ e.order = ([] : List Int)) ∨
      ∃ z : Int, e.order = e.widget.z ++ [z] := by
  have hok : arrangeRoot rootW2 = .ok arrW2 := by
    simp +decide [arrangeRoot, addWidget, addPlacements, rootW2, leafW2, sortByKey,
      insSortedBy, setAdd, setAddAll, dictInsert, leafA2, rootA2,
      Widget.attrs, Widget.layout, LayoutCap.fails, LayoutCap.placements,
      LayoutCap.extra, Placement.region, Placement.widget, Placement.order,
      Region.translate, Region.origin, Region.size, Size.region, Region.union,
      Region.intersection, Offset.sub, List.foldl, arrW2]
  exact ⟨hok, C2_child_order rootW2 arrW2 hok⟩

/-- The refutation of the original C2: the leaf's placement has `z = 5`
and its parent's recorded order is `()`, yet the leaf's recorded order
is `(3, 5)` (its own `z` plus the placement component), not
`() + (5,) = (5,)`. -/
theorem C2_counterexample :
    arrangeRoot rootW2 = .ok arrW2 ∧
    (∃ e ∈ arrW2.map, e.widget.wid = rootW2.attrs.wid ∧ e.order = ([] : List Int)) ∧
    (∃ e ∈ arrW2.map, e.widget.wid = leafW2.attrs.wid ∧
      e.order = ([3, 5] : List Int)) ∧
    ([3, 5] : List Int) ≠ [] ++ [5] := by
  refine ⟨?_, by decide, by decide, by decide⟩
  simp +decide [arrangeRoot, addWidget, addPlacements, rootW2, leafW2, sortByKey,
    insSortedBy, setAdd, setAddAll, dictInsert, leafA2, rootA2,
    Widget.attrs, Widget.layout, LayoutCap.fails, LayoutCap.placements,
    LayoutCap.extra, Placement.region, Placement.widget, Placement.order,
    Region.translate, Region.origin, Region.size, Size.region, Region.union,
    Region.intersection, Offset.sub, List.foldl, arrW2]

/-- The compositor state a successful reflow of `rootW2` leaves. -/
def stAfterW4 : Compositor := ⟨arrW2.map, [0, 1], some rootW2, ⟨4, 2⟩,
  [(1, ⟨0, 0, 2, 1⟩, ⟨0, 0, 4, 2⟩), (0, ⟨0, 0, 4, 2⟩, ⟨0, 0, 4, 2⟩)], none, false⟩

def rW4 : ReflowResult := ⟨[], [1, 0], []⟩

/-- Witness for C4 on the concrete reflow from the empty compositor. -/
theorem C4_witness :
    (1 ∈ rW4.shown ↔ 1 ∈ mapKeys stAfterW4.map ∧ 1 ∉ mapKeys Compositor.init.map) ∧
    (1 ∈ rW4.shown → 1 ∉ rW4.hidden) := by
  have hok : Compositor.init.reflow rootW2 ⟨4, 2⟩ = (stAfterW4, .ok rW4) := by
    have harr : arrangeRoot rootW2 = .ok arrW2 := by
      simp +decide [arrangeRoot, addWidget, addPlacements, rootW2, leafW2, sortByKey,
        insSortedBy, setAdd, setAddAll, dictInsert, leafA2, rootA2,
        Widget.attrs, Widget.layout, LayoutCap.fails, LayoutCap.placements,
        LayoutCap.extra, Placement.region, Placement.widget, Placement.order,
        Region.translate, Region.origin, Region.size, Size.region, Region.union,
        Region.intersection, Offset.sub, List.foldl, arrW2]
    simp +decide [Compositor.reflow, harr, Compositor.init, mapKeys, arrW2,
      stAfterW4, rW4, leafA2, rootA2]
  have h := C4_reflow_sets Compositor.init rootW2 ⟨4, 2⟩ stAfterW4 rW4 hok
  exact ⟨h.1 1, h.2.2.2.1 1⟩

/-- A root whose layout's arrange raises. -/
def rootFail : Widget := .mk ⟨0, ⟨4, 2⟩, [], true, false, ⟨0, 0⟩, ⟨0, 0⟩, []⟩
  (some (.mk true [] []))

/-- Witness for C8 on the concrete failing arrangement. -/
theorem C8_witness :
    (Compositor.init.reflow rootFail ⟨4, 2⟩).1.map = Compositor.init.map ∧
    (Compositor.init.reflow rootFail ⟨4, 2⟩).2 = .error () := by
  have herr : arrangeRoot rootFail = .error () := by
    simp +decide [arrangeRoot, addWidget, rootFail, Widget.attrs, Widget.layout,
      LayoutCap.fails, Size.region]
  have h := C8_reflow_atomic Compositor.init rootFail ⟨4, 2⟩ herr
  exact ⟨h.1, h.2.2.2⟩
